import Mathlib

/-!
# WpVet — shallow embedding and verification of spec claims

This file embeds the parts of the WpVet WordPress scanner (a TypeScript
project) that the specification's claims talk about, and proves or refutes
each claim against that embedding.

Strings are modelled as Lean `String`/`List Char`; JavaScript regular
expression operations are embedded as the equivalent character-list scans;
machine numbers are `Nat`/`Int` (confidences and HTTP statuses are small
integers in the source, so no overflow modelling is needed); JavaScript
exceptions are `Except`; `JSON.parse` (a platform builtin, not repository
code) is an oracle parameter.
-/

namespace WpVet

/-! ## CPE codec — embedding of `src/cpe.ts` (v0.3.0)

The v0.3.0 codec escapes the five CPE metacharacters, maps the sentinel
versions `unknown` and `*` to a bare `*` field, and parses CPE strings with
the regex
`^cpe:2\.3:a:([^:]+):([^:]+):([^:]+):[^:]*:[^:]*:[^:]*:[^:]*:([^:]*)`.
-/

/-- Characters allowed by `normalizeCpeField` (regex class `[a-z0-9\-._]`). -/
def isCpeFieldChar (c : Char) : Bool :=
  ('a' ≤ c && c ≤ 'z') || ('0' ≤ c && c ≤ '9') || c = '-' || c = '.' || c = '_'

/-- `.replace(/[^a-z0-9\-._]/g, '_')`: a single-character class replace is a
per-character map. -/
def replaceDisallowed (l : List Char) : List Char :=
  l.map (fun c => if isCpeFieldChar c then c else '_')

/-- `.replace(/_+/g, '_')`: collapse each run of underscores to one.
The boolean argument records whether the previous character was `_`. -/
def collapseUnderscoresAux : Bool → List Char → List Char
  | _, [] => []
  | prev, c :: t =>
    if c = '_' then
      if prev then collapseUnderscoresAux true t
      else '_' :: collapseUnderscoresAux true t
    else c :: collapseUnderscoresAux false t

def collapseUnderscores (l : List Char) : List Char :=
  collapseUnderscoresAux false l

/-- Remove one leading underscore (the `^_` alternative). -/
def dropLeadUnderscore : List Char → List Char
  | '_' :: t => t
  | other => other

/-- Remove one trailing underscore (the `_$` alternative). -/
def dropTailUnderscore (l : List Char) : List Char :=
  match l.reverse with
  | '_' :: t => t.reverse
  | _ => l

/-- `.replace(/^_|_$/g, '')`: remove one leading and one trailing underscore
(the global alternation matches each at most once). -/
def dropEdgeUnderscores (l : List Char) : List Char :=
  dropTailUnderscore (dropLeadUnderscore l)

/-- `normalizeCpeField` from cpe.ts: lowercase, replace disallowed chars by
`_`, collapse `_` runs, strip edge `_`, and fall back to `"unknown"` when the
result is empty (the `|| 'unknown'`). -/
def normalizeCpeField (s : String) : String :=
  if (dropEdgeUnderscores
      (collapseUnderscores (replaceDisallowed (s.toList.map Char.toLower)))).isEmpty
  then "unknown"
  else (dropEdgeUnderscores
      (collapseUnderscores (replaceDisallowed (s.toList.map Char.toLower)))).asString

/-- JavaScript `String.prototype.replace` with a global single-character
pattern: each occurrence of `p` becomes `r`. -/
def replaceChar (p : Char) (r : List Char) (l : List Char) : List Char :=
  l.flatMap (fun c => if c = p then r else [c])

/-- `escapeCpeValue` from cpe.ts (v0.3.0): the sentinels `unknown` and `*`
become a bare `*`; otherwise the five metacharacters are backslash-escaped in
the order `\\`, `*`, `?`, `"`, `:` (innermost replace runs first). -/
def escapeCpeValue (s : String) : String :=
  if s = "unknown" ∨ s = "*" then "*"
  else
    (replaceChar ':' ['\\', ':']
      (replaceChar '"' ['\\', '"']
        (replaceChar '?' ['\\', '?']
          (replaceChar '*' ['\\', '*']
            (replaceChar '\\' ['\\', '\\'] s.toList))))).asString

/-- JavaScript global replace of the two-character literal `p1 p2` by `r`;
the scan resumes after each replacement. -/
def replacePair (p1 p2 : Char) (r : List Char) : List Char → List Char
  | [] => []
  | [a] => [a]
  | a :: b :: t =>
    if a = p1 ∧ b = p2 then r ++ replacePair p1 p2 r t
    else a :: replacePair p1 p2 r (b :: t)

/-- The `unescape` closure inside `parseCpe`: undo `\:`, `\"`, `\?`, `\*`,
`\\` in that order. -/
def unescapeCpeValue (l : List Char) : List Char :=
  replacePair '\\' '\\' ['\\']
    (replacePair '\\' '*' ['*']
      (replacePair '\\' '?' ['?']
        (replacePair '\\' '"' ['"']
          (replacePair '\\' ':' [':'] l))))

/-- Known plugin→vendor table from `src/config.ts` (`KNOWN_PLUGIN_VENDORS`). -/
def knownPluginVendors : List (String × String) :=
  [("contact-form-7", "rocklobster"),
   ("elementor", "developer"),
   ("woocommerce", "automattic"),
   ("jetpack", "automattic"),
   ("akismet", "automattic"),
   ("wordfence", "wordfence"),
   ("yoast-seo", "yoast"),
   ("wordpress-seo", "yoast"),
   ("wpforms-lite", "wpforms"),
   ("really-simple-ssl", "really-simple-plugins"),
   ("all-in-one-seo-pack", "developer"),
   ("updraftplus", "developer"),
   ("advanced-custom-fields", "developer"),
   ("google-site-kit", "developer"),
   ("wp-mail-smtp", "developer"),
   ("gravityforms", "developer")]

def lookupVendor (slug : String) : Option String :=
  (knownPluginVendors.find? (fun p => p.1 == slug)).map (fun p => p.2)

/-- `getVendorForPlugin` from cpe.ts (v0.3.0): known table, then the
slug-prefix heuristic (`slug.split('-')[0]`), then the slug itself. -/
def getVendorForPlugin (slug : String) : String :=
  match lookupVendor slug with
  | some v => normalizeCpeField v
  | none =>
    if (slug.splitOn "-").length > 1 then
      match (slug.splitOn "-").head? with
      | some first =>
        match lookupVendor first with
        | some v => normalizeCpeField v
        | none => normalizeCpeField slug
      | none => normalizeCpeField slug
    else normalizeCpeField slug

/-- `generateCoreCpe` from cpe.ts: target-software field is `*` for core. -/
def generateCoreCpe (version : String) : String :=
  "cpe:2.3:a:wordpress:wordpress:" ++ escapeCpeValue version ++ ":*:*:*:*:*:*:*"

/-- The vendor field written by `generatePluginCpe`:
`vendor ? normalizeCpeField(vendor) : getVendorForPlugin(slug)` (an empty
vendor string is falsy in JavaScript). -/
def pluginVendorName (slug : String) (vendor : Option String) : String :=
  match vendor with
  | some v => if v = "" then getVendorForPlugin slug else normalizeCpeField v
  | none => getVendorForPlugin slug

/-- `generatePluginCpe(slug, version, vendor?)` from cpe.ts (v0.3.0). -/
def generatePluginCpe (slug version : String) (vendor : Option String) : String :=
  "cpe:2.3:a:" ++ pluginVendorName slug vendor ++ ":" ++ normalizeCpeField slug
    ++ ":" ++ escapeCpeValue version ++ ":*:*:*:*:wordpress:*:*"

/-- The vendor field written by `generateThemeCpe`:
`normalizeCpeField(vendor || slug)`. -/
def themeVendorName (slug : String) (vendor : Option String) : String :=
  match vendor with
  | some v => if v = "" then normalizeCpeField slug else normalizeCpeField v
  | none => normalizeCpeField slug

/-- `generateThemeCpe(slug, version, vendor?)` from cpe.ts (v0.3.0). -/
def generateThemeCpe (slug version : String) (vendor : Option String) : String :=
  "cpe:2.3:a:" ++ themeVendorName slug vendor ++ ":" ++ normalizeCpeField slug
    ++ ":" ++ escapeCpeValue version ++ ":*:*:*:*:wordpress:*:*"

/-- One colon-delimited regex field: `([^:]+)` or `[^:]*` followed by a
literal `:`. Since `[^:]` can never match `:`, greedy matching with
backtracking always captures exactly the maximal colon-free run; the head of
the `dropWhile` remainder, when present, fails the predicate and hence is the
required `:`. -/
def nextField (l : List Char) : Option (List Char × List Char) :=
  match l.dropWhile (fun c => c ≠ ':') with
  | _ :: rest => some (l.takeWhile (fun c => c ≠ ':'), rest)
  | [] => none

/-- Match a literal character-list prefix, returning the remainder. -/
def dropLit : List Char → List Char → Option (List Char)
  | [], l => some l
  | p :: ps, c :: cs => if c = p then dropLit ps cs else none
  | _ :: _, [] => none

structure CpeParts where
  vendor : String
  product : String
  version : String
  targetSw : String
deriving DecidableEq, Repr

/-- `parseCpe` from cpe.ts (v0.3.0): the anchored regex
`^cpe:2\.3:a:([^:]+):([^:]+):([^:]+):[^:]*:[^:]*:[^:]*:[^:]*:([^:]*)`,
then unescaping, the `*` → `unknown` version mapping, and
`targetSw: match[4] || '*'` (an empty capture is falsy). -/
def parseCpe (s : String) : Option CpeParts := do
  let rest ← dropLit ("cpe:2.3:a:".toList) s.toList
  let (v, r1) ← nextField rest
  let (p, r2) ← nextField r1
  let (ver, r3) ← nextField r2
  let (_, r4) ← nextField r3
  let (_, r5) ← nextField r4
  let (_, r6) ← nextField r5
  let (_, r7) ← nextField r6
  if v.isEmpty || p.isEmpty || ver.isEmpty then none
  else
    let tsw := r7.takeWhile (fun c => c ≠ ':')
    some
      { vendor := (unescapeCpeValue v).asString
        product := (unescapeCpeValue p).asString
        version := if ver = ['*'] then "unknown" else (unescapeCpeValue ver).asString
        targetSw := if tsw.isEmpty then "*" else tsw.asString }

/-- The `n`-th (0-based) colon-delimited field of a character list; this is
what "the version field of a CPE string" means for `n = 5`. -/
def nthColonField : Nat → List Char → Option (List Char)
  | 0, l => some (l.takeWhile (fun c => c ≠ ':'))
  | n + 1, l =>
    match l.dropWhile (fun c => c ≠ ':') with
    | _ :: rest => nthColonField n rest
    | [] => none

/-- The version field (6th colon-delimited field) of a CPE string. -/
def versionField (s : String) : Option (List Char) :=
  nthColonField 5 s.toList

/-! ## Core version evidence aggregation — `detectWordPressCore`, src/remote.ts

Lines 330–351 of src/remote.ts sort the collected evidence with the
comparator below and take `sources[0]`.  ECMAScript `Array.prototype.sort`
is stable and the comparator is consistent (it is induced by the key
"(has concrete version, −confidence)" compared lexicographically), so the
head of the sorted array is the first element that is minimal under the
comparator.  We embed the sort as the stable insertion sort `sortSources`
(the unique stable sort for a consistent comparator) and separately prove
that its head is the fold `pickBest`. -/

structure VersionSource where
  version : String
  confidence : Int
  source : String
deriving DecidableEq, Repr

/-- `a.version !== 'detected' && a.version !== 'unknown'`. -/
def hasRealVersion (s : VersionSource) : Bool :=
  s.version ≠ "detected" && s.version ≠ "unknown"

/-- The comparator passed to `sources.sort` in `detectWordPressCore`. -/
def srcCmp (a b : VersionSource) : Int :=
  if hasRealVersion a ≠ hasRealVersion b then (if hasRealVersion b then 1 else -1)
  else b.confidence - a.confidence

/-- `a` sorts strictly before `b` under the comparator. -/
def srcBeats (a b : VersionSource) : Bool :=
  srcCmp a b < 0

/-- Stable insertion: an element is inserted after every already-placed
element that does not sort strictly after it (earlier-registered evidence
stays in front on ties). -/
def insertSource (a : VersionSource) : List VersionSource → List VersionSource
  | [] => [a]
  | b :: t => if srcBeats b a then b :: insertSource a t else a :: b :: t

/-- Stable sort of the evidence list under the code's comparator. -/
def sortSources : List VersionSource → List VersionSource
  | [] => []
  | a :: t => insertSource a (sortSources t)

/-- Left fold computing the first minimal element directly (the current best
is replaced only by strictly better evidence). -/
def pickBest : VersionSource → List VersionSource → VersionSource
  | b, [] => b
  | b, s :: t => pickBest (if srcBeats s b then s else b) t

/-- `sources.sort(cmp)[0]` for a nonempty evidence list. -/
def selectWinner : List VersionSource → Option VersionSource
  | [] => none
  | x :: xs => some (pickBest x xs)

structure DetectedComponent where
  type : String
  slug : String
  name : String
  version : String
  cpe : String
  confidence : Int
  source : String
deriving DecidableEq, Repr

/-- Lines 326–351 of `detectWordPressCore`: empty evidence yields `null`;
otherwise sort, take the head, map the `detected` sentinel to `unknown`, and
build the core component. -/
def detectCoreFromSources (sources : List VersionSource) : Option DetectedComponent :=
  match sortSources sources with
  | [] => none
  | best :: _ =>
    let version := if best.version = "detected" then "unknown" else best.version
    some
      { type := "core", slug := "wordpress", name := "WordPress"
        version := version, cpe := generateCoreCpe version
        confidence := best.confidence, source := "remote" }

/-- Confidence of the exact meta-generator detection
(`extractCoreVersionFromHtml`, src/remote.ts line 121). -/
def metaGeneratorConfidence : Int := 95

/-! ## Bounded fetch with retry — `fetchWithRetry`, src/remote.ts

The loop `for (attempt = 0; attempt <= retry; attempt++)` sleeps
`retryDelay * 2^(attempt-1)` before every attempt except the first, performs
the fetch, returns any response whose status is neither 429 nor ≥ 500, treats
transport errors and 429/5xx responses as retryable, and returns `null` once
the loop ends.  The network is abstracted as an oracle giving each attempt's
outcome; the embedding returns the result, the number of attempts performed,
and the list of backoff delays slept. -/

inductive FetchOutcome where
  | transportErr
  | resp (status : Nat)
deriving DecidableEq, Repr

/-- An attempt outcome drives a retry exactly when it is a transport error or
an HTTP 429 / 5xx response. -/
def isRetryable : FetchOutcome → Bool
  | .transportErr => true
  | .resp s => s == 429 || 500 ≤ s

structure RetryRun where
  result : Option Nat
  attempts : Nat
  delays : List Nat
deriving DecidableEq, Repr

/-- The backoff slept at the top of attempt `i` (none before attempt 0). -/
def delayOf (retryDelay i : Nat) : List Nat :=
  if i = 0 then [] else [retryDelay * 2 ^ (i - 1)]

/-- Run the attempts with the given (ordered) attempt indices. -/
def retrySeq (oc : Nat → FetchOutcome) (retryDelay : Nat) : List Nat → RetryRun
  | [] => ⟨none, 0, []⟩
  | i :: rest =>
    match oc i with
    | .resp s =>
      if s = 429 ∨ 500 ≤ s then
        let r := retrySeq oc retryDelay rest
        ⟨r.result, r.attempts + 1, delayOf retryDelay i ++ r.delays⟩
      else ⟨some s, 1, delayOf retryDelay i⟩
    | .transportErr =>
      let r := retrySeq oc retryDelay rest
      ⟨r.result, r.attempts + 1, delayOf retryDelay i ++ r.delays⟩

/-- `fetchWithRetry` with `options.retry = retry`,
`options.retryDelay = retryDelay`, and attempt outcomes given by `oc`. -/
def fetchWithRetry (retry retryDelay : Nat) (oc : Nat → FetchOutcome) : RetryRun :=
  retrySeq oc retryDelay (List.range (retry + 1))

/-! ## HTML slug scraping — `extractPluginsFromHtml` / `extractThemesFromHtml`

src/remote.ts runs `/\/wp-content\/plugins\/([a-z0-9_-]+)\//gi` (resp.
`themes`) with `exec` in a loop: the engine finds the earliest match at or
after `lastIndex`, and the next search resumes after the consumed trailing
slash.  Since `[a-z0-9_-]` can never match `/`, the capture at a given start
position is exactly the maximal run of slug characters after the literal
prefix, and the match succeeds iff that run is nonempty and followed by `/`. -/

/-- The regex class `[a-z0-9_-]` under the `i` flag. -/
def slugChar (c : Char) : Bool :=
  ('a' ≤ c.toLower && c.toLower ≤ 'z') || ('0' ≤ c && c ≤ '9') || c = '_' || c = '-'

/-- Case-insensitive character comparison (the regex `i` flag; the pattern
literals here are ASCII). -/
def ciChar (a b : Char) : Bool := a.toLower = b.toLower

/-- Match a literal pattern case-insensitively, returning the remainder. -/
def dropCi : List Char → List Char → Option (List Char)
  | [], l => some l
  | p :: ps, c :: cs => if ciChar c p then dropCi ps cs else none
  | _ :: _, [] => none

/-- Try the whole pattern `pat ++ ([a-z0-9_-]+) ++ '/'` at the head of `l`;
on success return the captured run and the remainder after the trailing
slash. -/
def matchSlugAt (pat l : List Char) : Option (List Char × List Char) :=
  match dropCi pat l with
  | none => none
  | some r1 =>
    let run := r1.takeWhile slugChar
    if run.isEmpty then none
    else
      match r1.dropWhile slugChar with
      | '/' :: r2 => some (run, r2)
      | _ => none

/-- The `exec` loop, with explicit fuel so that the recursion is structural
(each successful match consumes at least one character, so `l.length` fuel
always suffices): at each position try the pattern; on success emit the
capture and resume after the match, otherwise advance one character. -/
def scanSlugsF (pat : List Char) : Nat → List Char → List (List Char)
  | 0, _ => []
  | _, [] => []
  | fuel + 1, c :: tail =>
    match matchSlugAt pat (c :: tail) with
    | some (run, r2) => run :: scanSlugsF pat fuel r2
    | none => scanSlugsF pat fuel tail

def scanSlugs (pat l : List Char) : List (List Char) :=
  scanSlugsF pat l.length l

/-- Keep the first occurrence of each element (JavaScript `Set` insertion
order and deduplication); `seen` accumulates the already-emitted elements. -/
def dedupFirstAux (seen : List String) : List String → List String
  | [] => []
  | x :: t =>
    if x ∈ seen then dedupFirstAux seen t
    else x :: dedupFirstAux (x :: seen) t

def dedupFirst (l : List String) : List String :=
  dedupFirstAux [] l

/-- Lowercase a string character-by-character (`String.prototype.toLowerCase`
restricted to the scanned ASCII slug characters). -/
def lowerStr (l : List Char) : String :=
  (l.map Char.toLower).asString

/-- `extractPluginsFromHtml`: scan, lowercase, drop the literal segment words
`plugin` and `plugins`, deduplicate preserving first insertion. -/
def extractPluginsFromHtml (html : String) : List String :=
  dedupFirst
    (((scanSlugs ("/wp-content/plugins/".toList) html.toList).map lowerStr).filter
      (fun s => s ≠ "plugin" ∧ s ≠ "plugins"))

/-- `extractThemesFromHtml`: same scan under `/wp-content/themes/`, dropping
only `theme` and `themes`. -/
def extractThemesFromHtml (html : String) : List String :=
  dedupFirst
    (((scanSlugs ("/wp-content/themes/".toList) html.toList).map lowerStr).filter
      (fun s => s ≠ "theme" ∧ s ≠ "themes"))

/-! ## Scan orchestration — `scanRemote`, src/remote.ts

The network-dependent pieces are abstracted: `findResult` is the outcome of
`findActiveBaseUrl`, `coreResult` the outcome of `detectWordPressCore`
(`Except` models a thrown error), and `pluginDetect`/`themeDetect` the
per-slug detections (`detectPlugin`/`detectTheme` with the `.catch(() =>
null)` already folded into `Option`).  Besides the result, the model returns
the lists of plugin and theme slugs whose detection was attempted. -/

/-- The slice of `WpVetConfig` relevant to candidate-set construction. -/
structure WpVetConfig where
  customPlugins : Option (List String) := none
  additionalPlugins : Option (List String) := none
  customThemes : Option (List String) := none
  additionalThemes : Option (List String) := none
deriving Repr

/-- `BUILTIN_PLUGINS` from src/config.ts. -/
def builtinPlugins : List String :=
  ["contact-form-7", "elementor", "woocommerce", "jetpack", "akismet",
   "wordfence", "yoast-seo", "wordpress-seo", "wpforms-lite", "classic-editor",
   "really-simple-ssl", "all-in-one-seo-pack", "updraftplus", "wp-super-cache",
   "w3-total-cache", "litespeed-cache", "advanced-custom-fields", "redirection",
   "duplicate-post", "google-analytics-for-wordpress", "google-site-kit",
   "wp-mail-smtp", "all-in-one-wp-migration", "tablepress", "ninja-forms",
   "gravityforms", "wpcf7-recaptcha", "cookie-notice", "cookiebot",
   "wp-fastest-cache", "autoptimize"]

/-- `BUILTIN_THEMES` from src/config.ts. -/
def builtinThemes : List String :=
  ["twentytwentyfive", "twentytwentyfour", "twentytwentythree",
   "twentytwentytwo", "twentytwentyone", "twentytwenty", "twentynineteen",
   "twentyseventeen", "twentysixteen", "twentyfifteen", "astra", "oceanwp",
   "generatepress", "neve", "flavor", "flavor-developer",
   "flavor-developer-developer", "flavor-developer-developer-developer",
   "flavor-developer-developer-developer-developer"]

/-- `getPluginsToScan` from src/config.ts: a nonempty custom list replaces
the builtin list; additional plugins are appended if not already present. -/
def getPluginsToScan (config : WpVetConfig) : List String :=
  match config.customPlugins with
  | some custom =>
    if custom.length > 0 then custom
    else builtinPlugins ++
      ((config.additionalPlugins.getD []).filter (fun p => p ∉ builtinPlugins))
  | none =>
    builtinPlugins ++
      ((config.additionalPlugins.getD []).filter (fun p => p ∉ builtinPlugins))

/-- `getThemesToScan` from src/config.ts. -/
def getThemesToScan (config : WpVetConfig) : List String :=
  match config.customThemes with
  | some custom =>
    if custom.length > 0 then custom
    else builtinThemes ++
      ((config.additionalThemes.getD []).filter (fun t => t ∉ builtinThemes))
  | none =>
    builtinThemes ++
      ((config.additionalThemes.getD []).filter (fun t => t ∉ builtinThemes))

structure DetectionResult where
  target : String
  source : String
  core : Option DetectedComponent
  plugins : List DetectedComponent
  themes : List DetectedComponent
  errors : List String
deriving Repr

/-- The plugin candidate set of one scan:
`new Set([...getPluginsToScan(config), ...htmlPlugins])`. -/
def pluginsToScan (config : WpVetConfig) (html : String) : List String :=
  dedupFirst (getPluginsToScan config ++ extractPluginsFromHtml html)

/-- The theme candidate set of one scan. -/
def themesToScan (config : WpVetConfig) (html : String) : List String :=
  dedupFirst (getThemesToScan config ++ extractThemesFromHtml html)

/-- `scanRemote` control flow (src/remote.ts lines 460–530), with the
attempted plugin/theme slug lists returned alongside the result.  The
`timestamp` field (an I/O clock read) is omitted from the model. -/
def scanRemote (config : WpVetConfig) (url : String)
    (findResult : Option (String × String))
    (coreResult : Except String (Option DetectedComponent))
    (pluginDetect : String → Option DetectedComponent)
    (themeDetect : String → Option DetectedComponent) :
    DetectionResult × List String × List String :=
  match findResult with
  | none =>
    (⟨url, "remote", none, [], [],
      ["Could not connect to the site or WordPress not detected"]⟩, [], [])
  | some (_, html) =>
    match coreResult with
    | .error e =>
      (⟨url, "remote", none, [], [], ["Core detection failed: " ++ e]⟩, [], [])
    | .ok none =>
      (⟨url, "remote", none, [], [], ["WordPress not detected at this URL"]⟩, [], [])
    | .ok (some core) =>
      let ps := pluginsToScan config html
      let ts := themesToScan config html
      (⟨url, "remote", some core, ps.filterMap pluginDetect,
        ts.filterMap themeDetect, []⟩, ps, ts)

/-! ## Concurrency limiter — `ConcurrencyLimiter`, src/remote.ts

`run()` loops `while (running >= max) await new Promise(r => queue.push(r))`,
then increments `running` (no suspension point between the final check and
the increment: JavaScript is single-threaded, so that is one atomic step),
runs the wrapped function, and in a `finally` block decrements `running`,
shifts the queue, and wakes the shifted waiter (which then re-executes the
`while` check).  Each task is modelled by a phase:

* `checking` — at the `while` condition (initial state, and the state a
  woken waiter returns to);
* `waiting`  — suspended in the queue;
* `running`  — executing the wrapped function;
* `done`     — finished (normally or by throwing).

The scheduler may interleave the enabled steps of different tasks
arbitrarily. -/

inductive Phase where
  | checking
  | waiting
  | running
  | done
deriving DecidableEq, Repr

structure LimState where
  counter : Int
  queue : List Nat
  tasks : List Phase
deriving Repr

/-- Events labelling the limiter's atomic steps; `complete` carries whether
the wrapped function threw (the `finally` block runs either way). -/
inductive LimEvent where
  | acquire (t : Nat)
  | enqueue (t : Nat)
  | complete (t : Nat) (threw : Bool)

/-- The limiter's atomic transitions for concurrency limit `n`. -/
inductive LimStep (n : Nat) : LimEvent → LimState → LimState → Prop where
  | acquire (t : Nat) (s : LimState)
      (hph : s.tasks.get? t = some Phase.checking)
      (hlt : s.counter < n) :
      LimStep n (.acquire t) s
        ⟨s.counter + 1, s.queue, s.tasks.set t Phase.running⟩
  | enqueue (t : Nat) (s : LimState)
      (hph : s.tasks.get? t = some Phase.checking)
      (hge : n ≤ s.counter) :
      LimStep n (.enqueue t) s
        ⟨s.counter, s.queue ++ [t], s.tasks.set t Phase.waiting⟩
  | completeEmpty (t : Nat) (threw : Bool) (s : LimState)
      (hph : s.tasks.get? t = some Phase.running)
      (hq : s.queue = []) :
      LimStep n (.complete t threw) s
        ⟨s.counter - 1, [], s.tasks.set t Phase.done⟩
  | completeWake (t : Nat) (threw : Bool) (w : Nat) (q' : List Nat) (s : LimState)
      (hph : s.tasks.get? t = some Phase.running)
      (hq : s.queue = w :: q') :
      LimStep n (.complete t threw) s
        ⟨s.counter - 1, q', (s.tasks.set t Phase.done).set w Phase.checking⟩

/-- Initial state: `m` simultaneous `run()` calls, all at the `while`
check, counter zero, empty queue. -/
def limInit (m : Nat) : LimState :=
  ⟨0, [], List.replicate m Phase.checking⟩

/-- States reachable from the initial state under some interleaving. -/
inductive LimReachable (n m : Nat) : LimState → Prop where
  | init : LimReachable n m (limInit m)
  | step {s s' : LimState} {e : LimEvent} :
      LimReachable n m s → LimStep n e s s' → LimReachable n m s'

/-- Number of tasks currently executing their wrapped function. -/
def runningCount (s : LimState) : Nat :=
  s.tasks.count Phase.running

/-! ## WP-CLI inventory parsing — src/wpcli.ts

JSON values are modelled by `Json` (numbers as integers — the inventory
format has no fractional numbers); `JSON.parse` is an oracle parameter of
type `String → Except String Json` so that its error message can be
recorded.  JavaScript truthiness and `String(...)` conversion are embedded
for the value shapes `Json` can take. -/

inductive Json where
  | null
  | bool (b : Bool)
  | num (n : Int)
  | str (s : String)
  | arr (xs : List Json)
  | obj (fields : List (String × Json))

/-- JavaScript truthiness for `Json` values (objects and arrays are always
truthy; absent fields are `undefined`, handled via `Option`). -/
def truthy : Json → Bool
  | .null => false
  | .bool b => b
  | .num n => n ≠ 0
  | .str s => s ≠ ""
  | .arr _ => true
  | .obj _ => true

/-- Property lookup `o[k]` (first binding wins, as produced by `JSON.parse`;
non-objects have none of the accessed named properties). -/
def getField (j : Json) (k : String) : Option Json :=
  match j with
  | .obj fields => (fields.find? (fun p => p.1 == k)).map (fun p => p.2)
  | _ => none

/-- Truthiness of a possibly-absent property. -/
def truthyOpt : Option Json → Bool
  | none => false
  | some v => truthy v

mutual

/-- JavaScript `String(x)` on `Json` values. -/
def jsToString : Json → String
  | .null => "null"
  | .bool true => "true"
  | .bool false => "false"
  | .num n => toString n
  | .str s => s
  | .arr xs => jsArrToString xs
  | .obj _ => "[object Object]"

/-- `Array.prototype.toString`: elements joined with `,`, `null` elements
rendered empty. -/
def jsArrToString : List Json → String
  | [] => ""
  | [x] =>
    match x with
    | .null => ""
    | other => jsToString other
  | x :: y :: t =>
    (match x with
     | .null => ""
     | other => jsToString other) ++ "," ++ jsArrToString (y :: t)

end

/-- `String(obj.name || obj.slug || 'unknown')`: the first truthy of the
`name` and `slug` properties, else the literal `'unknown'`, stringified. -/
def pickNameSlug (rec : Json) : String :=
  if truthyOpt (getField rec "name") then jsToString ((getField rec "name").getD .null)
  else if truthyOpt (getField rec "slug") then jsToString ((getField rec "slug").getD .null)
  else "unknown"

/-- `String(obj.version || 'unknown')`. -/
def pickVersion (rec : Json) : String :=
  if truthyOpt (getField rec "version") then jsToString ((getField rec "version").getD .null)
  else "unknown"

/-- `typeof item === 'object' && item !== null` (arrays are `'object'`). -/
def isJsObject : Json → Bool
  | .obj _ => true
  | .arr _ => true
  | _ => false

/-- One parsed plugin record.  `status` keeps the raw JavaScript value
(`(obj.status as ...) || 'inactive'` does not convert it). -/
structure WpPlugin where
  name : String
  slug : String
  version : String
  status : Json
  update : String
  auto_update : String
  title : Option String
  author : Option String
  description : Option String

structure WpTheme where
  name : String
  slug : String
  version : String
  status : Json
  update : String
  auto_update : String
  title : Option String
  author : Option String

/-- Build one plugin entry from a record (the body of the `json.map`
callback in `parsePluginList`). -/
def mkWpPlugin (rec : Json) : WpPlugin :=
  { name := pickNameSlug rec
    slug := pickNameSlug rec
    version := pickVersion rec
    status := if truthyOpt (getField rec "status") then (getField rec "status").getD .null
              else .str "inactive"
    update := match getField rec "update" with
      | some (.str "available") => "available"
      | _ => "none"
    auto_update := match getField rec "auto_update" with
      | some (.str "on") => "on"
      | _ => "off"
    title := if truthyOpt (getField rec "title")
             then some (jsToString ((getField rec "title").getD .null)) else none
    author := if truthyOpt (getField rec "author")
              then some (jsToString ((getField rec "author").getD .null)) else none
    description := if truthyOpt (getField rec "description")
                   then some (jsToString ((getField rec "description").getD .null)) else none }

def mkWpTheme (rec : Json) : WpTheme :=
  { name := pickNameSlug rec
    slug := pickNameSlug rec
    version := pickVersion rec
    status := if truthyOpt (getField rec "status") then (getField rec "status").getD .null
              else .str "inactive"
    update := match getField rec "update" with
      | some (.str "available") => "available"
      | _ => "none"
    auto_update := match getField rec "auto_update" with
      | some (.str "on") => "on"
      | _ => "off"
    title := if truthyOpt (getField rec "title")
             then some (jsToString ((getField rec "title").getD .null)) else none
    author := if truthyOpt (getField rec "author")
              then some (jsToString ((getField rec "author").getD .null)) else none }

/-- `json.map` with the per-entry object check, indexed for the error
message. -/
def parsePluginItems : Nat → List Json → Except String (List WpPlugin)
  | _, [] => .ok []
  | i, item :: rest =>
    if isJsObject item then do
      let tail ← parsePluginItems (i + 1) rest
      .ok (mkWpPlugin item :: tail)
    else .error ("Invalid plugin entry at index " ++ toString i)

/-- `parsePluginList` from src/wpcli.ts: throws unless given an array. -/
def parsePluginList : Json → Except String (List WpPlugin)
  | .arr items => parsePluginItems 0 items
  | _ => .error "Expected array for plugin list"

def parseThemeItems : Nat → List Json → Except String (List WpTheme)
  | _, [] => .ok []
  | i, item :: rest =>
    if isJsObject item then do
      let tail ← parseThemeItems (i + 1) rest
      .ok (mkWpTheme item :: tail)
    else .error ("Invalid theme entry at index " ++ toString i)

/-- `parseThemeList` from src/wpcli.ts. -/
def parseThemeList : Json → Except String (List WpTheme)
  | .arr items => parseThemeItems 0 items
  | _ => .error "Expected array for theme list"

/-- Core info carried by the inventory (`site_url` etc. keep their raw
values — the TypeScript casts do not convert). -/
structure WpCoreInfo where
  version : String
  site_url : Option Json := none
  home_url : Option Json := none
  multisite : Option Json := none

structure WpCliInput where
  core : Option WpCoreInfo := none
  plugins : List WpPlugin := []
  themes : List WpTheme := []

structure ParseError where
  line : Nat
  content : String
  error : String
deriving DecidableEq, Repr

/-- `line.substring(0, 100) + (line.length > 100 ? '...' : '')`. -/
def truncate100 (s : String) : String :=
  if s.length > 100 then (s.toList.take 100).asString ++ "..." else s

/-- `String.prototype.trim` over the character list: drop whitespace from
both ends. -/
def trimChars (l : List Char) : List Char :=
  ((l.dropWhile Char.isWhitespace).reverse.dropWhile Char.isWhitespace).reverse

/-- `split('\n')` over the character list (structural; `split` on the empty
string yields `[""]`, as in JavaScript). -/
def splitNlAux : List Char → List Char → List (List Char)
  | acc, [] => [acc.reverse]
  | acc, c :: rest =>
    if c = '\n' then acc.reverse :: splitNlAux [] rest
    else splitNlAux (c :: acc) rest

/-- The nonempty lines of the NDJSON fallback:
`input.trim().split('\n').filter(l => l.trim())`. -/
def ndLines (input : String) : List String :=
  ((splitNlAux [] (trimChars input.toList)).map List.asString).filter
    (fun l => trimChars l.toList ≠ [])

/-- The `try` body of one NDJSON loop iteration: parse the line and apply
its update to the accumulated result (failures — from `JSON.parse` or from
the list parsers — become the caught exception). -/
def ndLineBody (jparse : String → Except String Json) (st : WpCliInput)
    (line : String) : Except String WpCliInput := do
  let obj ← jparse line
  match obj with
  | .arr items =>
    if truthyOpt ((items.head?.map (fun h => getField h "stylesheet")).join) then do
      let themes ← parseThemeList (.arr items)
      .ok { st with themes := themes }
    else do
      let plugins ← parsePluginList (.arr items)
      .ok { st with plugins := plugins }
  | other =>
    if isJsObject other then
      match getField other "version" with
      | some (.str v) =>
        if v ≠ "" ∧ ¬ truthyOpt (getField other "plugins") then
          let ci : WpCoreInfo :=
            { version := v
              site_url := getField other "site_url"
              home_url := getField other "home_url"
              multisite := getField other "multisite" }
          .ok { st with core := some ci }
        else .ok st
      | _ => .ok st
    else .ok st

/-- The NDJSON loop: each line either updates the state or appends a
line-numbered error (the `catch`), and processing always continues. -/
def ndFold (jparse : String → Except String Json) :
    WpCliInput → Nat → List String → WpCliInput × List ParseError
  | st, _, [] => (st, [])
  | st, i, line :: rest =>
    match ndLineBody jparse st line with
    | .ok st' =>
      let (stF, errs) := ndFold jparse st' (i + 1) rest
      (stF, errs)
    | .error m =>
      let (stF, errs) := ndFold jparse st (i + 1) rest
      (stF, ⟨i + 1, truncate100 line, m⟩ :: errs)

/-- `parseWpCliInput` from src/wpcli.ts: whole-input JSON first, then the
NDJSON fallback; structurally invalid top-level input throws. -/
def parseWpCliInput (jparse : String → Except String Json) (input : String) :
    Except String (WpCliInput × List ParseError) :=
  match jparse input with
  | .ok parsed =>
    match parsed with
    | .arr items => do
      let plugins ← parsePluginList (.arr items)
      .ok (⟨none, plugins, []⟩, [])
    | other =>
      if isJsObject other then do
        let core : Option WpCoreInfo :=
          if truthyOpt (getField other "core") then
            let c := (getField other "core").getD .null
            let ci : WpCoreInfo :=
              { version := if truthyOpt (getField c "version")
                           then jsToString ((getField c "version").getD .null)
                           else "unknown"
                site_url := getField c "site_url"
                home_url := getField c "home_url"
                multisite := getField c "multisite" }
            some ci
          else none
        let plugins ←
          if truthyOpt (getField other "plugins") then
            parsePluginList ((getField other "plugins").getD .null)
          else .ok []
        let themes ←
          if truthyOpt (getField other "themes") then
            parseThemeList ((getField other "themes").getD .null)
          else .ok []
        .ok (⟨core, plugins, themes⟩, [])
      else .error "Invalid WP-CLI input format"
  | .error _ =>
    let lines := ndLines input
    if lines.isEmpty then .error "Empty input"
    else .ok (ndFold jparse ⟨none, [], []⟩ 0 lines)

/-- The error component of an `Except` value (`none` on success). -/
def exceptErr {α : Type} : Except String α → Option String
  | .ok _ => none
  | .error m => some m

/-- Whether a line fails to parse, and with which message (stated over the
initial state; by `ndLineBody_error_irrel` the state is irrelevant). -/
def ndLineError (jparse : String → Except String Json) (line : String) :
    Option String :=
  exceptErr (ndLineBody jparse ⟨none, [], []⟩ line)

/-! ## JS fingerprint detection — `detectCoreByJsFingerprint`, src/fingerprint-js.ts

The fetch loop is abstracted to its observable per-path data: for each
well-known script path that returned content, whether the normalized
content's hash hits the reference table (and with which version set), and
whether a comment-extracted version was found.  The selection loop divides
`sum of matchedVersions.length over matches containing v` by
`matches.length` in JavaScript floating point; the operands are small
integers, so the comparisons against `3` and against the running minimum are
exact and are modelled over `ℚ` (`none` plays the role of the initial
`Infinity`). -/

structure JsFileData where
  path : String
  hash : String
  lookup : Option (List String)
  comment : Option String
deriving DecidableEq, Repr

structure FingerprintMatch where
  path : String
  hash : String
  matchedVersions : List String
deriving DecidableEq, Repr

structure JsFingerprintResult where
  version : Option String
  confidence : Int
  source : String
  -- the source calls this field `matches`, a reserved word in Lean
  matchesFound : List FingerprintMatch
deriving DecidableEq, Repr

/-- `versionCounts.set(v, (versionCounts.get(v) || 0) + n)`: a JavaScript
`Map` updates an existing key in place and appends a new one. -/
def bumpCount (k : String) (n : Nat) : List (String × Nat) → List (String × Nat)
  | [] => [(k, n)]
  | (k', v) :: t => if k' = k then (k', v + n) :: t else (k', v) :: bumpCount k n t

/-- The matches contributed by one fetched file: a hash-table hit (all its
versions), then a comment-extracted version. -/
def fileMatches (f : JsFileData) : List FingerprintMatch :=
  (match f.lookup with
   | some vs => [⟨f.path, f.hash, vs⟩]
   | none => []) ++
  (match f.comment with
   | some v => [⟨f.path, f.hash, [v]⟩]
   | none => [])

/-- The count contributions of one fetched file: `+1` per hash-table
version, `+2` for a comment version. -/
def fileCounts (f : JsFileData) (m : List (String × Nat)) : List (String × Nat) :=
  let m1 := match f.lookup with
    | some vs => vs.foldl (fun acc v => bumpCount v 1 acc) m
    | none => m
  match f.comment with
  | some v => bumpCount v 2 m1
  | none => m1

/-- The fetch loop's accumulated matches and version counts. -/
def gatherFingerprints (files : List JsFileData) :
    List FingerprintMatch × List (String × Nat) :=
  files.foldl (fun (acc : List FingerprintMatch × List (String × Nat)) f =>
    (acc.1 ++ fileMatches f, fileCounts f acc.2)) ([], [])

/-- `avgVersionsPerMatch` for one version: the summed sizes of the version
sets of the matches containing it, divided by the total number of matches. -/
def avgVersionsPerMatch (ms : List FingerprintMatch) (v : String) : ℚ :=
  (((ms.filter (fun m => v ∈ m.matchedVersions)).map
      (fun m => (m.matchedVersions.length : ℚ))).sum) / (ms.length : ℚ)

/-- State of the selection loop: best version so far, its count, and the
running minimum average (`none` = the initial `Infinity`). -/
structure SelState where
  bestVersion : Option String
  maxCount : Nat
  minVersionsMatched : Option ℚ
deriving DecidableEq, Repr

/-- The update condition of the selection loop:
`count > maxCount || (count === maxCount && avgVersionsPerMatch <
minVersionsMatched)` (`none` is the initial `Infinity`, which any average
is below). -/
def selTake (ms : List FingerprintMatch) (st : SelState)
    (entry : String × Nat) : Bool :=
  decide (entry.2 > st.maxCount) ||
    (decide (entry.2 = st.maxCount) &&
      match st.minVersionsMatched with
      | none => true
      | some q => decide (avgVersionsPerMatch ms entry.1 < q))

/-- One iteration of the `for (const [version, count] of versionCounts)`
selection loop. -/
def selStep (ms : List FingerprintMatch) (st : SelState)
    (entry : String × Nat) : SelState :=
  if selTake ms st entry then
    ⟨some entry.1, entry.2, some (avgVersionsPerMatch ms entry.1)⟩
  else st

def runSelection (ms : List FingerprintMatch)
    (counts : List (String × Nat)) : SelState :=
  counts.foldl (selStep ms) ⟨none, 0, none⟩

/-- `confidence += Math.min(matches.length * 10, 25)`. -/
def matchCountBonus (n : Nat) : Int :=
  min (n * 10) 25

/-- `if (minVersionsMatched <= 3) confidence += 10` (`Infinity ≤ 3` is
false). -/
def specificityBonus (minV : Option ℚ) : Int :=
  match minV with
  | some q => if q ≤ 3 then 10 else 0
  | none => 0

/-- `detectCoreByJsFingerprint` after the fetches: no matches yields the
zero result; otherwise run the selection loop and compute
`min(50 + matchCountBonus + specificityBonus, 75)`. -/
def detectCoreByJsFingerprint (files : List JsFileData) : JsFingerprintResult :=
  if (gatherFingerprints files).1.isEmpty then ⟨none, 0, "js-fingerprint", []⟩
  else
    ⟨(runSelection (gatherFingerprints files).1 (gatherFingerprints files).2).bestVersion,
      min (50 + matchCountBonus (gatherFingerprints files).1.length +
        specificityBonus
          (runSelection (gatherFingerprints files).1
            (gatherFingerprints files).2).minVersionsMatched) 75,
      "js-fingerprint", (gatherFingerprints files).1⟩

/-! ## General string and field lemmas -/

theorem toList_append (a b : String) : (a ++ b).toList = a.toList ++ b.toList :=
  String.data_append a b

theorem asString_eq_empty_iff (l : List Char) : l.asString = "" ↔ l = [] := by
  constructor
  · intro h
    have : (l.asString).toList = ("" : String).toList := by rw [h]
    simpa [List.toList_asString] using this
  · intro h
    simp [h]
    rfl

theorem takeWhile_noColon (f r : List Char) (h : ':' ∉ f) :
    (f ++ ':' :: r).takeWhile (fun c => c ≠ ':') = f := by
  induction f with
  | nil =>
    simp only [List.nil_append]
    rw [List.takeWhile_cons]
    simp
  | cons c t ih =>
    have hc : c ≠ ':' := fun hc => h (hc ▸ List.mem_cons_self c t)
    have ht : ':' ∉ t := fun hm => h (List.mem_cons_of_mem c hm)
    have hpc : (fun c => decide (c ≠ ':')) c = true := by simp [hc]
    rw [List.cons_append, List.takeWhile_cons, if_pos hpc, ih ht]

theorem dropWhile_noColon (f r : List Char) (h : ':' ∉ f) :
    (f ++ ':' :: r).dropWhile (fun c => c ≠ ':') = ':' :: r := by
  induction f with
  | nil =>
    simp only [List.nil_append]
    rw [List.dropWhile_cons]
    simp
  | cons c t ih =>
    have hc : c ≠ ':' := fun hc => h (hc ▸ List.mem_cons_self c t)
    have ht : ':' ∉ t := fun hm => h (List.mem_cons_of_mem c hm)
    have hpc : (fun c => decide (c ≠ ':')) c = true := by simp [hc]
    rw [List.cons_append, List.dropWhile_cons, if_pos hpc]
    exact ih ht

theorem nextField_noColon (f r : List Char) (h : ':' ∉ f) :
    nextField (f ++ ':' :: r) = some (f, r) := by
  unfold nextField
  rw [dropWhile_noColon f r h, takeWhile_noColon f r h]

theorem nthColonField_succ (f r : List Char) (n : Nat) (h : ':' ∉ f) :
    nthColonField (n + 1) (f ++ ':' :: r) = nthColonField n r := by
  have hstep : nthColonField (n + 1) (f ++ ':' :: r) =
      match (f ++ ':' :: r).dropWhile (fun c => c ≠ ':') with
      | _ :: rest => nthColonField n rest
      | [] => none := rfl
  rw [hstep, dropWhile_noColon f r h]

theorem dropLit_append (l : List Char) : dropLit l (l ++ r) = some r := by
  induction l with
  | nil => rfl
  | cons c t ih => simp [dropLit, ih]

theorem dropLit_eq_append {pat l r : List Char} (h : dropLit pat l = some r) :
    l = pat ++ r := by
  induction pat generalizing l with
  | nil =>
    simp only [dropLit, Option.some.injEq] at h
    simp [h]
  | cons p ps ih =>
    cases l with
    | nil => simp [dropLit] at h
    | cons c cs =>
      simp only [dropLit] at h
      split at h
      · rename_i hc
        rw [List.cons_append, hc, ih h]
      · simp at h

/-! ## CPE codec lemmas -/

theorem mem_collapseUnderscoresAux {c : Char} {b : Bool} {l : List Char}
    (h : c ∈ collapseUnderscoresAux b l) : c ∈ l := by
  induction l generalizing b with
  | nil => simp [collapseUnderscoresAux] at h
  | cons a t ih =>
    simp only [collapseUnderscoresAux] at h
    split at h
    · rename_i ha
      split at h
      · exact List.mem_cons_of_mem a (ih h)
      · rcases List.mem_cons.mp h with h1 | h1
        · exact h1 ▸ ha ▸ List.mem_cons_self a t
        · exact List.mem_cons_of_mem a (ih h1)
    · rcases List.mem_cons.mp h with h1 | h1
      · exact h1 ▸ List.mem_cons_self a t
      · exact List.mem_cons_of_mem a (ih h1)

theorem mem_dropLeadUnderscore {c : Char} {l : List Char}
    (h : c ∈ dropLeadUnderscore l) : c ∈ l := by
  unfold dropLeadUnderscore at h
  split at h
  · exact List.mem_cons_of_mem '_' h
  · exact h

theorem mem_dropTailUnderscore {c : Char} {l : List Char}
    (h : c ∈ dropTailUnderscore l) : c ∈ l := by
  unfold dropTailUnderscore at h
  split at h
  · rename_i t ht
    have hl : c ∈ l.reverse := by
      rw [ht]
      exact List.mem_cons_of_mem '_' (by simpa using List.mem_reverse.mpr h)
    exact List.mem_reverse.mp hl
  · exact h

theorem mem_dropEdgeUnderscores {c : Char} {l : List Char}
    (h : c ∈ dropEdgeUnderscores l) : c ∈ l := by
  unfold dropEdgeUnderscores at h
  exact mem_dropLeadUnderscore (mem_dropTailUnderscore h)

theorem noColon_normalizeCpeField (s : String) :
    ':' ∉ (normalizeCpeField s).toList := by
  unfold normalizeCpeField
  split
  · decide
  · intro h
    rw [List.toList_asString] at h
    have h1 := mem_dropEdgeUnderscores h
    have h2 := mem_collapseUnderscoresAux h1
    unfold replaceDisallowed at h2
    rcases List.mem_map.mp h2 with ⟨a, _, ha⟩
    revert ha
    split
    · rename_i hall
      intro hc
      rw [hc] at hall
      revert hall
      decide
    · intro hc
      exact absurd hc.symm (by decide)

theorem noColon_getVendorForPlugin (s : String) :
    ':' ∉ (getVendorForPlugin s).toList := by
  unfold getVendorForPlugin
  split
  · exact noColon_normalizeCpeField _
  · split
    · split
      · split
        · exact noColon_normalizeCpeField _
        · exact noColon_normalizeCpeField _
      · exact noColon_normalizeCpeField _
    · exact noColon_normalizeCpeField _

theorem noColon_pluginVendorName (slug : String) (vendor : Option String) :
    ':' ∉ (pluginVendorName slug vendor).toList := by
  unfold pluginVendorName
  split
  · split
    · exact noColon_getVendorForPlugin _
    · exact noColon_normalizeCpeField _
  · exact noColon_getVendorForPlugin _

theorem noColon_themeVendorName (slug : String) (vendor : Option String) :
    ':' ∉ (themeVendorName slug vendor).toList := by
  unfold themeVendorName
  split
  · split
    · exact noColon_normalizeCpeField _
    · exact noColon_normalizeCpeField _
  · exact noColon_normalizeCpeField _

theorem generatePluginCpe_decomp (slug version : String) (vendor : Option String) :
    (generatePluginCpe slug version vendor).toList =
      "cpe:2.3:a:".toList ++
        ((pluginVendorName slug vendor).toList ++ ':' ::
          ((normalizeCpeField slug).toList ++ ':' ::
            ((escapeCpeValue version).toList ++ ":*:*:*:*:wordpress:*:*".toList))) := by
  unfold generatePluginCpe
  simp only [toList_append]
  simp

theorem generateThemeCpe_decomp (slug version : String) (vendor : Option String) :
    (generateThemeCpe slug version vendor).toList =
      "cpe:2.3:a:".toList ++
        ((themeVendorName slug vendor).toList ++ ':' ::
          ((normalizeCpeField slug).toList ++ ':' ::
            ((escapeCpeValue version).toList ++ ":*:*:*:*:wordpress:*:*".toList))) := by
  unfold generateThemeCpe
  simp only [toList_append]
  simp

theorem nthColonField5_gen (V P tail : List Char) (hV : ':' ∉ V) (hP : ':' ∉ P) :
    nthColonField 5 ("cpe:2.3:a:".toList ++ (V ++ ':' :: (P ++ ':' :: tail))) =
      some (tail.takeWhile (fun c => c ≠ ':')) := by
  have hsplit : "cpe:2.3:a:".toList ++ (V ++ ':' :: (P ++ ':' :: tail)) =
      "cpe".toList ++ ':' :: ("2.3".toList ++ ':' ::
        ("a".toList ++ ':' :: (V ++ ':' :: (P ++ ':' :: tail)))) := rfl
  rw [hsplit]
  rw [nthColonField_succ _ _ _ (by decide)]
  rw [nthColonField_succ _ _ _ (by decide)]
  rw [nthColonField_succ _ _ _ (by decide)]
  rw [nthColonField_succ _ _ _ hV]
  rw [nthColonField_succ _ _ _ hP]
  rfl

theorem versionField_genPlugin_sentinel (slug : String) (vendor : Option String)
    (version : String) (hv : version = "unknown" ∨ version = "*") :
    versionField (generatePluginCpe slug version vendor) = some ['*'] := by
  unfold versionField
  rw [generatePluginCpe_decomp]
  have he : escapeCpeValue version = "*" := by
    unfold escapeCpeValue
    rw [if_pos hv]
  rw [he]
  rw [nthColonField5_gen _ _ _ (noColon_pluginVendorName slug vendor)
    (noColon_normalizeCpeField slug)]
  rfl

theorem versionField_genTheme_sentinel (slug : String) (vendor : Option String)
    (version : String) (hv : version = "unknown" ∨ version = "*") :
    versionField (generateThemeCpe slug version vendor) = some ['*'] := by
  unfold versionField
  rw [generateThemeCpe_decomp]
  have he : escapeCpeValue version = "*" := by
    unfold escapeCpeValue
    rw [if_pos hv]
  rw [he]
  rw [nthColonField5_gen _ _ _ (noColon_themeVendorName slug vendor)
    (noColon_normalizeCpeField slug)]
  rfl

theorem parseCpe_version_capture {s : String} {r : CpeParts}
    (hp : parseCpe s = some r) :
    ∃ ver : List Char, versionField s = some ver ∧ ¬ ver.isEmpty ∧
      r.version = (if ver = ['*'] then "unknown" else (unescapeCpeValue ver).asString) := by
  unfold parseCpe at hp
  simp only [Option.pure_def, Option.bind_eq_bind, Option.bind_eq_some] at hp
  obtain ⟨rest, hrest, hp⟩ := hp
  obtain ⟨⟨v, r1⟩, hv, hp⟩ := hp
  obtain ⟨⟨p, r2⟩, hpf, hp⟩ := hp
  obtain ⟨⟨ver, r3⟩, hverf, hp⟩ := hp
  obtain ⟨⟨f7, r4⟩, _, hp⟩ := hp
  obtain ⟨⟨f8, r5⟩, _, hp⟩ := hp
  obtain ⟨⟨f9, r6⟩, _, hp⟩ := hp
  obtain ⟨⟨f10, r7⟩, _, hp⟩ := hp
  simp only at hp
  split at hp
  · simp at hp
  · rename_i hne
    refine ⟨ver, ?_, ?_, ?_⟩
    · have hs : s.toList = "cpe:2.3:a:".toList ++ rest := dropLit_eq_append hrest
      unfold versionField
      rw [hs]
      have hsplit : "cpe:2.3:a:".toList ++ rest =
          "cpe".toList ++ ':' :: ("2.3".toList ++ ':' :: ("a".toList ++ ':' :: rest)) :=
        rfl
      rw [hsplit]
      rw [nthColonField_succ _ _ _ (by decide)]
      rw [nthColonField_succ _ _ _ (by decide)]
      rw [nthColonField_succ _ _ _ (by decide)]
      -- step through the vendor and product fields using the `nextField` calls
      unfold nextField at hv hpf hverf
      dsimp only at hv hpf hverf
      have hstep2 : nthColonField 2 rest =
          match rest.dropWhile (fun c => c ≠ ':') with
          | _ :: rest' => nthColonField 1 rest'
          | [] => none := rfl
      rw [hstep2]
      cases hdw : rest.dropWhile (fun c => c ≠ ':') with
      | nil => rw [hdw] at hv; simp at hv
      | cons hd rest' =>
        rw [hdw] at hv
        simp only [Option.some.injEq, Prod.mk.injEq] at hv
        show nthColonField 1 rest' = some ver
        rw [hv.2]
        have hstep1 : nthColonField 1 r1 =
            match r1.dropWhile (fun c => c ≠ ':') with
            | _ :: rest'' => nthColonField 0 rest''
            | [] => none := rfl
        rw [hstep1]
        cases hdw1 : r1.dropWhile (fun c => c ≠ ':') with
        | nil => rw [hdw1] at hpf; simp at hpf
        | cons hd1 rest'' =>
          rw [hdw1] at hpf
          simp only [Option.some.injEq, Prod.mk.injEq] at hpf
          show nthColonField 0 rest'' = some ver
          rw [hpf.2]
          unfold nthColonField
          cases hdw2 : r2.dropWhile (fun c => c ≠ ':') with
          | nil => rw [hdw2] at hverf; simp at hverf
          | cons hd2 rest3 =>
            rw [hdw2] at hverf
            simp only [Option.some.injEq, Prod.mk.injEq] at hverf
            rw [hverf.1]
    · intro hemp
      simp [hemp] at hne
    · simp only [Option.some.injEq] at hp
      rw [← hp]

/-! ## Claim theorems: C1 and C2 -/

/-- **C1** (code bug): the claimed round-trip
`parseCpe(generatePluginCpe(slug, version, vendor))` fails for versions
containing a colon.  `escapeCpeValue` writes the version `1.2:3` as
`1.2\:3`, but `parseCpe`'s capture `([^:]+)` stops at the colon inside the
escape, so the version comes back as `1.2\` (truncated) and every later field
shifts by one, making `targetSw` `*` instead of `wordpress`.  The repository's
own test (`parseCpe - escaped colons round-trip` in the v0.3.0 cpe test
suite) asserts exactly the behaviour this claim states, so the code
contradicts its own tests. -/
theorem c1_parseCpe_drops_escaped_colon :
    parseCpe (generatePluginCpe "pro:duct" "1.2:3" (some "ven:dor")) =
      some { vendor := "ven_dor", product := "pro_duct",
             version := "1.2\\", targetSw := "*" } ∧
    (parseCpe (generatePluginCpe "pro:duct" "1.2:3" (some "ven:dor"))).map
        CpeParts.version ≠ some "1.2:3" ∧
    (parseCpe (generatePluginCpe "pro:duct" "1.2:3" (some "ven:dor"))).map
        CpeParts.targetSw ≠ some "wordpress" := by
  refine ⟨by decide, by decide, by decide⟩

/-- **C2**: encoding the sentinel version `unknown` (or a bare `*`) yields a
CPE whose version field (the 6th colon-delimited field) is exactly `*`, for
core, plugin, and theme CPEs; and any CPE accepted by `parseCpe` whose
version field is `*` decodes to version `unknown`. -/
theorem c2_sentinel_version_roundtrip :
    generateCoreCpe "unknown" = "cpe:2.3:a:wordpress:wordpress:*:*:*:*:*:*:*:*" ∧
    generateCoreCpe "*" = "cpe:2.3:a:wordpress:wordpress:*:*:*:*:*:*:*:*" ∧
    (∀ slug vendor, versionField (generatePluginCpe slug "unknown" vendor) = some ['*']) ∧
    (∀ slug vendor, versionField (generatePluginCpe slug "*" vendor) = some ['*']) ∧
    (∀ slug vendor, versionField (generateThemeCpe slug "unknown" vendor) = some ['*']) ∧
    (∀ slug vendor, versionField (generateThemeCpe slug "*" vendor) = some ['*']) ∧
    (∀ s r, parseCpe s = some r → versionField s = some ['*'] →
      r.version = "unknown") := by
  refine ⟨by decide, by decide,
    fun slug vendor => versionField_genPlugin_sentinel slug vendor _ (Or.inl rfl),
    fun slug vendor => versionField_genPlugin_sentinel slug vendor _ (Or.inr rfl),
    fun slug vendor => versionField_genTheme_sentinel slug vendor _ (Or.inl rfl),
    fun slug vendor => versionField_genTheme_sentinel slug vendor _ (Or.inr rfl),
    fun s r hp hv => ?_⟩
  obtain ⟨ver, hvf, _, hver⟩ := parseCpe_version_capture hp
  rw [hvf] at hv
  simp only [Option.some.injEq] at hv
  rw [hver, if_pos hv]

/-- Witness for C2 at a concrete input: the plugin CPE for `akismet` with
sentinel version decodes back to version `unknown`. -/
theorem c2_sentinel_version_roundtrip_witness :
    ({ vendor := "automattic", product := "akismet", version := "unknown",
       targetSw := "wordpress" } : CpeParts).version = "unknown" := by
  exact c2_sentinel_version_roundtrip.2.2.2.2.2.2
    (generatePluginCpe "akismet" "unknown" none) _ (by decide)
    (c2_sentinel_version_roundtrip.2.2.1 "akismet" none)

/-! ## Winner selection lemmas (C3)

`srcCmp` is induced by the lexicographic key "(has a concrete version,
−confidence)"; all order reasoning goes through that key. -/

/-- First tier of the comparator key: 0 for concrete versions, 1 for
sentinels. -/
def srcKey (s : VersionSource) : Int :=
  if hasRealVersion s then 0 else 1

theorem srcBeats_iff (a b : VersionSource) :
    srcBeats a b = true ↔
      (srcKey a < srcKey b ∨ (srcKey a = srcKey b ∧ b.confidence < a.confidence)) := by
  unfold srcBeats srcCmp srcKey
  by_cases hA : hasRealVersion a <;> by_cases hB : hasRealVersion b <;>
    simp [hA, hB] <;> omega

theorem srcBeats_false_iff (a b : VersionSource) :
    srcBeats a b = false ↔
      ¬ (srcKey a < srcKey b ∨ (srcKey a = srcKey b ∧ b.confidence < a.confidence)) := by
  rw [← srcBeats_iff]
  cases h : srcBeats a b <;> simp [h]

theorem srcKey_eq_of_hasReal {a b : VersionSource}
    (h : hasRealVersion a = hasRealVersion b) : srcKey a = srcKey b := by
  unfold srcKey
  rw [h]

theorem pickBest_mem (l : List VersionSource) (b : VersionSource) :
    pickBest b l ∈ b :: l := by
  induction l generalizing b with
  | nil => simp [pickBest]
  | cons s t ih =>
    show pickBest (if srcBeats s b then s else b) t ∈ b :: s :: t
    by_cases hsb : srcBeats s b = true
    · rw [if_pos hsb]
      exact List.mem_cons_of_mem b (ih s)
    · rw [if_neg hsb]
      rcases List.mem_cons.mp (ih b) with h | h
      · rw [h]
        exact List.mem_cons_self b (s :: t)
      · exact List.mem_cons_of_mem b (List.mem_cons_of_mem s h)

theorem pickBest_not_beaten (l : List VersionSource) (b : VersionSource) :
    ∀ s ∈ b :: l, srcBeats s (pickBest b l) = false := by
  induction l generalizing b with
  | nil =>
    intro s hs
    rcases List.mem_cons.mp hs with h | h
    · subst h
      show srcBeats s s = false
      rw [srcBeats_false_iff]
      omega
    · simp at h
  | cons s0 t ih =>
    intro s hs
    show srcBeats s (pickBest (if srcBeats s0 b then s0 else b) t) = false
    by_cases hsb : srcBeats s0 b = true
    · rw [if_pos hsb]
      rcases List.mem_cons.mp hs with h | h
      · -- s = b : it cannot beat the minimum of `s0 :: t` since s0 beats it
        have h1 := ih s0 s0 (List.mem_cons_self s0 t)
        rw [srcBeats_false_iff] at h1
        rw [srcBeats_iff] at hsb
        rw [srcBeats_false_iff, h]
        omega
      · exact ih s0 s h
    · rw [if_neg hsb]
      rcases List.mem_cons.mp hs with h | h
      · exact ih b s (List.mem_cons.mpr (Or.inl h))
      · rcases List.mem_cons.mp h with h1 | h1
        · -- s = s0 : b does not beat s0, and nothing beats the minimum of b :: t
          have h2 := ih b b (List.mem_cons_self b t)
          rw [srcBeats_false_iff] at h2
          rw [Bool.not_eq_true, srcBeats_false_iff] at hsb
          rw [srcBeats_false_iff, h1]
          omega
        · exact ih b s (List.mem_cons.mpr (Or.inr h1))

theorem pickBest_first (l : List VersionSource) (b : VersionSource) :
    ∃ l1 l2, b :: l = l1 ++ pickBest b l :: l2 ∧
      ∀ s ∈ l1, srcBeats (pickBest b l) s = true := by
  induction l generalizing b with
  | nil => exact ⟨[], [], rfl, by simp⟩
  | cons s0 t ih =>
    show ∃ l1 l2, b :: s0 :: t = l1 ++ pickBest (if srcBeats s0 b then s0 else b) t :: l2 ∧
      ∀ s ∈ l1, srcBeats (pickBest (if srcBeats s0 b then s0 else b) t) s = true
    by_cases hsb : srcBeats s0 b = true
    · simp only [hsb, if_true]
      obtain ⟨l1, l2, hdec, hbts⟩ := ih s0
      refine ⟨b :: l1, l2, by rw [List.cons_append, ← hdec], ?_⟩
      intro s hs
      rcases List.mem_cons.mp hs with h | h
      · -- the winner beats the dethroned accumulator b
        have h1 := pickBest_not_beaten t s0 s0 (List.mem_cons_self s0 t)
        rw [srcBeats_false_iff] at h1
        rw [srcBeats_iff] at hsb
        rw [srcBeats_iff, h]
        omega
      · exact hbts s h
    · simp only [hsb, if_false, Bool.false_eq_true]
      obtain ⟨l1, l2, hdec, hbts⟩ := ih b
      cases l1 with
      | nil =>
        simp only [List.nil_append] at hdec
        have hb2 : b = pickBest b t := (List.cons.injEq _ _ _ _).mp hdec |>.1
        refine ⟨[], s0 :: t, ?_, by simp⟩
        rw [List.nil_append, ← hb2]
      | cons a l1' =>
        simp only [List.cons_append, List.cons.injEq] at hdec
        refine ⟨b :: s0 :: l1', l2, ?_, ?_⟩
        · rw [List.cons_append, List.cons_append, ← hdec.2]
        · intro s hs
          have hb : srcBeats (pickBest b t) b = true := by
            have hx := hbts a (List.mem_cons_self a l1')
            rw [← hdec.1] at hx
            exact hx
          rcases List.mem_cons.mp hs with h | h
          · rw [h]
            exact hb
          · rcases List.mem_cons.mp h with h1 | h1
            · -- the winner beats s0 : it beats b, which s0 does not beat
              rw [srcBeats_iff] at hb
              rw [Bool.not_eq_true, srcBeats_false_iff] at hsb
              rw [srcBeats_iff, h1]
              omega
            · exact hbts s (List.mem_cons_of_mem a h1)

theorem pickBest_shift (t : List VersionSource) (a : VersionSource) :
    pickBest a t =
      match selectWinner t with
      | none => a
      | some m => if srcBeats m a then m else a := by
  induction t generalizing a with
  | nil => rfl
  | cons s t' ih =>
    show pickBest (if srcBeats s a then s else a) t' = _
    have hM : selectWinner (s :: t') = some (pickBest s t') := rfl
    rw [hM]
    rw [ih (if srcBeats s a then s else a), ih s]
    cases hw : selectWinner t' with
    | none => rfl
    | some m' =>
      simp only
      by_cases hsa : srcBeats s a = true
      · by_cases hms : srcBeats m' s = true
        · -- m' beats s beats a, so m' beats a
          have hma : srcBeats m' a = true := by
            rw [srcBeats_iff] at hms hsa ⊢
            omega
          simp [hsa, hms, hma]
        · simp [hsa, hms]
      · by_cases hms : srcBeats m' s = true
        · simp [hsa, hms]
        · -- a is below s which is below m', so m' does not beat a
          have hma : srcBeats m' a = false := by
            rw [Bool.not_eq_true] at hms hsa
            rw [srcBeats_false_iff] at hms hsa ⊢
            omega
          simp [hsa, hms, hma]

theorem insertSource_head (a : VersionSource) (l : List VersionSource) :
    (insertSource a l).head? =
      some (match l.head? with
        | none => a
        | some b => if srcBeats b a then b else a) := by
  cases l with
  | nil => rfl
  | cons b t =>
    show (if srcBeats b a then b :: insertSource a t else a :: b :: t).head? = _
    by_cases h : srcBeats b a = true <;> simp [h]

/-- The head of the stable sort is exactly the fold-computed first minimal
element — the bridge between `sources.sort(cmp)[0]` and `selectWinner`. -/
theorem sortSources_head (l : List VersionSource) :
    (sortSources l).head? = selectWinner l := by
  induction l with
  | nil => rfl
  | cons a t ih =>
    show (insertSource a (sortSources t)).head? = some (pickBest a t)
    rw [insertSource_head, pickBest_shift t a, ← ih]

theorem sortSources_eq_nil_iff (l : List VersionSource) :
    sortSources l = [] ↔ l = [] := by
  cases l with
  | nil => simp [sortSources]
  | cons a t =>
    simp only [sortSources]
    constructor
    · intro h
      cases hs : sortSources t with
      | nil => rw [hs] at h; simp [insertSource] at h
      | cons b t' =>
        rw [hs] at h
        by_cases hb : srcBeats b a = true <;> simp [insertSource, hb] at h
    · intro h
      simp at h

/-! ## Claim theorem: C3 -/

/-- **C3**: for every nonempty evidence list, the winner picked by
`detectWordPressCore` (the head of the stably sorted list) (a) is one of the
candidates, (b) is never beaten under the code's comparator, (c) is concrete
whenever any candidate is concrete — regardless of confidence, (d) has
maximal confidence among candidates of its own concreteness tier, and (e)
strictly beats every candidate registered before it (ties go to the
earlier-registered source).  In particular, for
`[{version: '6.4.2', confidence: 60}, {version: 'unknown', confidence: 95}]`
the detected core version is `6.4.2`. -/
theorem c3_winner_two_tier_selection :
    (∀ sources w, selectWinner sources = some w →
      w ∈ sources ∧
      (∀ s ∈ sources, srcBeats s w = false) ∧
      (∀ s ∈ sources, hasRealVersion s = true → hasRealVersion w = true) ∧
      (∀ s ∈ sources, hasRealVersion s = hasRealVersion w →
        s.confidence ≤ w.confidence) ∧
      (∃ l1 l2, sources = l1 ++ w :: l2 ∧ ∀ s ∈ l1, srcBeats w s = true)) ∧
    (∀ sources, (sortSources sources).head? = selectWinner sources) ∧
    (detectCoreFromSources
        [⟨"6.4.2", 60, "ver-param"⟩, ⟨"unknown", 95, "wp-paths"⟩]).map
      DetectedComponent.version = some "6.4.2" := by
  refine ⟨?_, sortSources_head, by decide⟩
  intro sources w hw
  cases sources with
  | nil => simp [selectWinner] at hw
  | cons x xs =>
    simp only [selectWinner, Option.some.injEq] at hw
    subst hw
    have hnb := pickBest_not_beaten xs x
    refine ⟨pickBest_mem xs x, hnb, ?_, ?_, pickBest_first xs x⟩
    · intro s hs hreal
      have h1 := hnb s hs
      rw [srcBeats_false_iff] at h1
      by_contra hwr
      have hk1 : srcKey s = 0 := by
        unfold srcKey
        rw [if_pos hreal]
      have hk2 : srcKey (pickBest x xs) = 1 := by
        unfold srcKey
        rw [if_neg (by simpa using hwr)]
      omega
    · intro s hs hsame
      have h1 := hnb s hs
      rw [srcBeats_false_iff] at h1
      have hk := srcKey_eq_of_hasReal hsame
      omega

/-- Witness for C3 at a concrete evidence list: the low-confidence concrete
candidate is the selected winner and the high-confidence sentinel does not
beat it. -/
theorem c3_winner_two_tier_selection_witness :
    (⟨"6.4.2", 60, "ver-param"⟩ : VersionSource) ∈
        [(⟨"6.4.2", 60, "ver-param"⟩ : VersionSource), ⟨"unknown", 95, "wp-paths"⟩] ∧
    srcBeats ⟨"unknown", 95, "wp-paths"⟩ ⟨"6.4.2", 60, "ver-param"⟩ = false := by
  have h := c3_winner_two_tier_selection.1
    [⟨"6.4.2", 60, "ver-param"⟩, ⟨"unknown", 95, "wp-paths"⟩]
    ⟨"6.4.2", 60, "ver-param"⟩ (by decide)
  exact ⟨h.1, h.2.1 ⟨"unknown", 95, "wp-paths"⟩ (by decide)⟩

/-! ## Retry loop lemmas (C4) -/

theorem isRetryable_resp_true {s : Nat} (h : isRetryable (.resp s) = true) :
    s = 429 ∨ 500 ≤ s := by
  unfold isRetryable at h
  simp at h
  rcases h with h | h
  · exact Or.inl h
  · exact Or.inr h

theorem isRetryable_resp_false {s : Nat} (h : isRetryable (.resp s) = false) :
    ¬ (s = 429 ∨ 500 ≤ s) := by
  unfold isRetryable at h
  simp at h
  omega

theorem retrySeq_cons_resp (oc : Nat → FetchOutcome) (d i : Nat) (rest : List Nat)
    (s : Nat) (ho : oc i = .resp s) :
    retrySeq oc d (i :: rest) =
      if s = 429 ∨ 500 ≤ s then
        ⟨(retrySeq oc d rest).result, (retrySeq oc d rest).attempts + 1,
          delayOf d i ++ (retrySeq oc d rest).delays⟩
      else ⟨some s, 1, delayOf d i⟩ := by
  show (match oc i with
    | FetchOutcome.resp s =>
      if s = 429 ∨ 500 ≤ s then
        ⟨(retrySeq oc d rest).result, (retrySeq oc d rest).attempts + 1,
          delayOf d i ++ (retrySeq oc d rest).delays⟩
      else ⟨some s, 1, delayOf d i⟩
    | FetchOutcome.transportErr =>
      ⟨(retrySeq oc d rest).result, (retrySeq oc d rest).attempts + 1,
        delayOf d i ++ (retrySeq oc d rest).delays⟩ : RetryRun) = _
  rw [ho]

theorem retrySeq_cons_err (oc : Nat → FetchOutcome) (d i : Nat) (rest : List Nat)
    (ho : oc i = .transportErr) :
    retrySeq oc d (i :: rest) =
      ⟨(retrySeq oc d rest).result, (retrySeq oc d rest).attempts + 1,
        delayOf d i ++ (retrySeq oc d rest).delays⟩ := by
  show (match oc i with
    | FetchOutcome.resp s =>
      if s = 429 ∨ 500 ≤ s then
        ⟨(retrySeq oc d rest).result, (retrySeq oc d rest).attempts + 1,
          delayOf d i ++ (retrySeq oc d rest).delays⟩
      else ⟨some s, 1, delayOf d i⟩
    | FetchOutcome.transportErr =>
      ⟨(retrySeq oc d rest).result, (retrySeq oc d rest).attempts + 1,
        delayOf d i ++ (retrySeq oc d rest).delays⟩ : RetryRun) = _
  rw [ho]

theorem retrySeq_attempts_le (oc : Nat → FetchOutcome) (d : Nat) (l : List Nat) :
    (retrySeq oc d l).attempts ≤ l.length := by
  induction l with
  | nil => simp [retrySeq]
  | cons i rest ih =>
    cases ho : oc i with
    | resp s =>
      rw [retrySeq_cons_resp oc d i rest s ho]
      split
      · simp only [List.length_cons]
        omega
      · simp
    | transportErr =>
      rw [retrySeq_cons_err oc d i rest ho]
      simp only [List.length_cons]
      omega

theorem retrySeq_all_retryable (oc : Nat → FetchOutcome) (d : Nat) (l : List Nat)
    (h : ∀ i ∈ l, isRetryable (oc i) = true) :
    retrySeq oc d l = ⟨none, l.length, (l.map (delayOf d)).flatten⟩ := by
  induction l with
  | nil => rfl
  | cons i rest ih =>
    have hi := h i (List.mem_cons_self i rest)
    have hrest := ih (fun j hj => h j (List.mem_cons_of_mem i hj))
    cases ho : oc i with
    | resp s =>
      rw [ho] at hi
      rw [retrySeq_cons_resp oc d i rest s ho,
        if_pos (isRetryable_resp_true hi), hrest]
      simp
    | transportErr =>
      rw [retrySeq_cons_err oc d i rest ho, hrest]
      simp

theorem retrySeq_success (oc : Nat → FetchOutcome) (d : Nat) (l1 l2 : List Nat)
    (i s : Nat) (h1 : ∀ j ∈ l1, isRetryable (oc j) = true)
    (hi : oc i = .resp s) (hs : isRetryable (.resp s) = false) :
    retrySeq oc d (l1 ++ i :: l2) =
      ⟨some s, l1.length + 1, (l1.map (delayOf d)).flatten ++ delayOf d i⟩ := by
  induction l1 with
  | nil =>
    simp only [List.nil_append]
    rw [retrySeq_cons_resp oc d i l2 s hi, if_neg (isRetryable_resp_false hs)]
    simp
  | cons a l1' ih =>
    have ha := h1 a (List.mem_cons_self a l1')
    have hrest := ih (fun j hj => h1 j (List.mem_cons_of_mem a hj))
    rw [List.cons_append]
    cases ho : oc a with
    | resp s' =>
      rw [ho] at ha
      rw [retrySeq_cons_resp oc d a (l1' ++ i :: l2) s' ho,
        if_pos (isRetryable_resp_true ha), hrest]
      simp [List.append_assoc]
    | transportErr =>
      rw [retrySeq_cons_err oc d a (l1' ++ i :: l2) ho, hrest]
      simp [List.append_assoc]

theorem delays_flatten (d : Nat) : ∀ i : Nat,
    ((List.range i).map (delayOf d)).flatten ++ delayOf d i =
      (List.range i).map (fun j => d * 2 ^ j) := by
  intro i
  induction i with
  | zero => rfl
  | succ i ih =>
    rw [List.range_succ, List.map_append, List.flatten_append]
    simp only [List.map_cons, List.map_nil, List.flatten_cons, List.flatten_nil,
      List.append_nil]
    rw [ih, List.map_append]
    simp [delayOf]

theorem range_split {i n : Nat} (h : i < n) :
    ∃ l2, List.range n = List.range i ++ i :: l2 := by
  induction n with
  | zero => omega
  | succ m ih =>
    by_cases him : i < m
    · obtain ⟨l2, hl2⟩ := ih him
      exact ⟨l2 ++ [m], by rw [List.range_succ, hl2]; simp⟩
    · have : i = m := by omega
      subst this
      exact ⟨[], by rw [List.range_succ]⟩

/-! ## Claim theorem: C4 -/

/-- **C4**: `fetchWithRetry` performs at most `1 + retry` attempts; an
attempt is retried exactly when it is a transport error or an HTTP 429/5xx
response — any other response is returned immediately with no further
attempts; the backoff before attempt `n ≥ 1` is `retryDelay * 2^(n-1)`;
when every attempt fails it returns `null` (`none`) instead of throwing.
The concrete 500/500/succeed scenario with `retry = 2` returns the success
after delays `retryDelay` and `2 * retryDelay`. -/
theorem c4_fetch_retry_backoff :
    (∀ retry d oc, (fetchWithRetry retry d oc).attempts ≤ retry + 1) ∧
    (∀ retry d oc i s, i ≤ retry →
      (∀ j, j < i → isRetryable (oc j) = true) →
      oc i = .resp s → isRetryable (.resp s) = false →
      fetchWithRetry retry d oc =
        ⟨some s, i + 1, (List.range i).map (fun j => d * 2 ^ j)⟩) ∧
    (∀ retry d oc, (∀ j, j ≤ retry → isRetryable (oc j) = true) →
      fetchWithRetry retry d oc =
        ⟨none, retry + 1, ((List.range (retry + 1)).map (delayOf d)).flatten⟩) ∧
    (∀ d, fetchWithRetry 2 d (fun i => if i < 2 then .resp 500 else .resp 200) =
      ⟨some 200, 3, [d, 2 * d]⟩) := by
  refine ⟨?_, ?_, ?_, ?_⟩
  · intro retry d oc
    have h := retrySeq_attempts_le oc d (List.range (retry + 1))
    simpa [fetchWithRetry] using h
  · intro retry d oc i s hile hbefore hoc hnr
    obtain ⟨l2, hr⟩ := range_split (show i < retry + 1 by omega)
    unfold fetchWithRetry
    rw [hr, retrySeq_success oc d (List.range i) l2 i s
      (fun j hj => hbefore j (List.mem_range.mp hj)) hoc hnr]
    rw [delays_flatten]
    simp [List.length_range]
  · intro retry d oc hall
    unfold fetchWithRetry
    rw [retrySeq_all_retryable oc d _ (fun j hj => hall j (by
      have := List.mem_range.mp hj
      omega))]
    simp [List.length_range]
  · intro d
    show retrySeq _ d (List.range 3) = _
    have hr : List.range 3 = [0, 1, 2] := rfl
    rw [hr]
    rw [retrySeq_cons_resp _ d 0 [1, 2] 500 rfl, if_pos (by norm_num)]
    rw [retrySeq_cons_resp _ d 1 [2] 500 rfl, if_pos (by norm_num)]
    rw [retrySeq_cons_resp _ d 2 [] 200 rfl, if_neg (by norm_num)]
    simp [retrySeq, delayOf]
    omega

/-- Witness for C4 at a concrete input: a non-retryable 404 on the first
attempt is returned immediately, with one attempt and no backoff. -/
theorem c4_fetch_retry_backoff_witness :
    fetchWithRetry 1 7 (fun _ => FetchOutcome.resp 404) = ⟨some 404, 1, []⟩ := by
  have h := c4_fetch_retry_backoff.2.1 1 7 (fun _ => FetchOutcome.resp 404) 0 404
    (by omega) (fun j hj => absurd hj (by omega)) rfl (by decide)
  simpa using h

/-! ## Concurrency limiter lemmas (C5) -/

/-- Effect of overwriting one list position on an occurrence count. -/
theorem count_set (l : List Phase) (i : Nat) (a b c : Phase)
    (h : l.get? i = some a) :
    (l.set i b).count c + (if a = c then 1 else 0) =
      l.count c + (if b = c then 1 else 0) := by
  induction l generalizing i with
  | nil => simp [List.get?] at h
  | cons x t ih =>
    cases i with
    | zero =>
      simp only [List.get?, Option.some.injEq] at h
      simp only [List.set, List.count_cons, beq_iff_eq, h]
      by_cases hb : b = c <;> by_cases hx : a = c <;> simp [hb, hx] <;> omega
    | succ j =>
      simp only [List.get?] at h
      simp only [List.set, List.count_cons, beq_iff_eq]
      have := ih j h
      by_cases hx : x = c <;> simp [hx] <;> omega

/-- The limiter's inductive invariant: the counter equals the number of
running tasks and stays at most `n`; the queue has no duplicates and holds
only waiting tasks. -/
def LimInv (n : Nat) (s : LimState) : Prop :=
  s.counter = (runningCount s : Int) ∧
  s.counter ≤ (n : Int) ∧
  s.queue.Nodup ∧
  (∀ t ∈ s.queue, s.tasks.get? t = some Phase.waiting)

theorem limInv_init (n m : Nat) : LimInv n (limInit m) := by
  refine ⟨?_, ?_, by simp [limInit], by simp [limInit]⟩
  · show (0 : Int) = ((List.replicate m Phase.checking).count Phase.running : Int)
    rw [List.count_replicate]
    simp
  · show (0 : Int) ≤ (n : Int)
    exact Int.ofNat_nonneg n

theorem limInv_step {n : Nat} {e : LimEvent} {s s' : LimState}
    (hinv : LimInv n s) (hstep : LimStep n e s s') : LimInv n s' := by
  obtain ⟨hcnt, hle, hnd, hq⟩ := hinv
  cases hstep with
  | acquire t _ hph hlt =>
    have hcs := count_set s.tasks t Phase.checking Phase.running Phase.running hph
    simp at hcs
    refine ⟨?_, by dsimp only; unfold runningCount at hcnt; omega, hnd, ?_⟩
    · show s.counter + 1 = ((s.tasks.set t Phase.running).count Phase.running : Int)
      unfold runningCount at hcnt
      omega
    · intro w hw
      have hwp := hq w hw
      have hne : t ≠ w := by
        intro he
        rw [he, hwp] at hph
        exact absurd (Option.some.injEq _ _ ▸ hph) (by simp)
      show (s.tasks.set t Phase.running).get? w = some Phase.waiting
      rw [List.get?_set_ne _ _ hne]
      exact hwp
  | enqueue t _ hph hge =>
    have hcs := count_set s.tasks t Phase.checking Phase.waiting Phase.running hph
    simp at hcs
    have htq : t ∉ s.queue := by
      intro hmem
      have := hq t hmem
      rw [this] at hph
      exact absurd (Option.some.injEq _ _ ▸ hph) (by simp)
    refine ⟨?_, hle, ?_, ?_⟩
    · show s.counter = ((s.tasks.set t Phase.waiting).count Phase.running : Int)
      unfold runningCount at hcnt
      omega
    · show (s.queue ++ [t]).Nodup
      rw [List.nodup_append]
      refine ⟨hnd, List.nodup_singleton t, ?_⟩
      intro a ha hat
      simp only [List.mem_singleton] at hat
      exact htq (hat ▸ ha)
    · intro w hw
      show (s.tasks.set t Phase.waiting).get? w = some Phase.waiting
      rcases List.mem_append.mp hw with hmem | hmem
      · have hwp := hq w hmem
        have hne : t ≠ w := fun he => htq (he ▸ hmem)
        rw [List.get?_set_ne _ _ hne]
        exact hwp
      · have hwt : w = t := by simpa using hmem
        subst hwt
        have hlt : w < s.tasks.length := (List.get?_eq_some.mp hph).1
        exact List.get?_set_eq_of_lt _ hlt
  | completeEmpty t th _ hph hque =>
    have hcs := count_set s.tasks t Phase.running Phase.done Phase.running hph
    simp at hcs
    have hpos : 0 < s.tasks.count Phase.running :=
      List.count_pos_iff.mpr (List.get?_mem hph)
    refine ⟨?_, by dsimp only; unfold runningCount at hcnt; omega, List.nodup_nil, by simp⟩
    show s.counter - 1 = ((s.tasks.set t Phase.done).count Phase.running : Int)
    unfold runningCount at hcnt
    omega
  | completeWake t th w q' _ hph hque =>
    have hwq : w ∈ s.queue := by rw [hque]; exact List.mem_cons_self w q'
    have hwp := hq w hwq
    have hne : t ≠ w := by
      intro he
      rw [he, hwp] at hph
      exact absurd (Option.some.injEq _ _ ▸ hph) (by simp)
    have hcs := count_set s.tasks t Phase.running Phase.done Phase.running hph
    simp at hcs
    have hw1 : (s.tasks.set t Phase.done).get? w = some Phase.waiting := by
      rw [List.get?_set_ne _ _ hne]
      exact hwp
    have hcs2 := count_set (s.tasks.set t Phase.done) w Phase.waiting
      Phase.checking Phase.running hw1
    simp at hcs2
    have hpos : 0 < s.tasks.count Phase.running :=
      List.count_pos_iff.mpr (List.get?_mem hph)
    have hndq : (w :: q').Nodup := hque ▸ hnd
    refine ⟨?_, by dsimp only; unfold runningCount at hcnt; omega,
      (List.nodup_cons.mp hndq).2, ?_⟩
    · show s.counter - 1 =
        (((s.tasks.set t Phase.done).set w Phase.checking).count Phase.running : Int)
      unfold runningCount at hcnt
      omega
    · intro v hv
      have hvq : v ∈ s.queue := by
        rw [hque]
        exact List.mem_cons_of_mem w hv
      have hvp := hq v hvq
      have hvt : t ≠ v := by
        intro he
        rw [he, hvp] at hph
        exact absurd (Option.some.injEq _ _ ▸ hph) (by simp)
      have hvw : w ≠ v := fun he => (List.nodup_cons.mp hndq).1 (he ▸ hv)
      show ((s.tasks.set t Phase.done).set w Phase.checking).get? v = some Phase.waiting
      rw [List.get?_set_ne _ _ hvw, List.get?_set_ne _ _ hvt]
      exact hvp

theorem limInv_reachable {n m : Nat} {s : LimState}
    (h : LimReachable n m s) : LimInv n s := by
  induction h with
  | init => exact limInv_init n m
  | step _ hstep ih => exact limInv_step ih hstep

/-! ## Claim theorem: C5 -/

/-- **C5**: in every state reachable under any interleaving of `m`
concurrent `run()` calls through a limiter with bound `n`, the number of
concurrently executing wrapped functions never exceeds `n`, and the
`running` counter exactly equals that number (no slot is ever leaked: a
finished task holds no slot).  Moreover every completion step — whether the
wrapped function returned or threw — decrements the counter by one and
dequeues-and-wakes the next waiter, and the transition itself does not
depend on which exit path was taken. -/
theorem c5_limiter_concurrency_ceiling :
    (∀ n m s, LimReachable n m s →
      runningCount s ≤ n ∧ s.counter = (runningCount s : Int)) ∧
    (∀ n m s s' t th, LimReachable n m s → LimStep n (.complete t th) s s' →
      s'.counter = s.counter - 1 ∧
      (s.queue = [] → s'.queue = []) ∧
      (∀ w q', s.queue = w :: q' → s'.queue = q' ∧
        s'.tasks.get? w = some Phase.checking)) ∧
    (∀ n t th th' s s', LimStep n (.complete t th) s s' ↔
      LimStep n (.complete t th') s s') := by
  refine ⟨?_, ?_, ?_⟩
  · intro n m s h
    obtain ⟨hcnt, hle, _, _⟩ := limInv_reachable h
    constructor
    · omega
    · exact hcnt
  · intro n m s s' t th hr hstep
    obtain ⟨_, _, hnd, hq⟩ := limInv_reachable hr
    cases hstep with
    | completeEmpty t th _ hph hque =>
      refine ⟨rfl, fun _ => rfl, ?_⟩
      intro w q' hwq
      rw [hque] at hwq
      exact absurd hwq (by simp)
    | completeWake t th w q' _ hph hque =>
      refine ⟨rfl, ?_, ?_⟩
      · intro hnil
        rw [hnil] at hque
        exact absurd hque (by simp)
      · intro w' q'' hwq
        rw [hque] at hwq
        injection hwq with hw hq2
        subst hw
        subst hq2
        refine ⟨rfl, ?_⟩
        have hwmem : w ∈ s.queue := by
          rw [hque]
          exact List.mem_cons_self w q'
        have hwp := hq w hwmem
        have hlt : w < s.tasks.length := (List.get?_eq_some.mp hwp).1
        have hlt2 : w < (s.tasks.set t Phase.done).length := by simpa using hlt
        exact List.get?_set_eq_of_lt _ hlt2
  · intro n t th th' s s'
    constructor
    · intro hstep
      cases hstep with
      | completeEmpty t th _ hph hque => exact LimStep.completeEmpty t th' _ hph hque
      | completeWake t th w q' _ hph hque => exact LimStep.completeWake t th' w q' _ hph hque
    · intro hstep
      cases hstep with
      | completeEmpty t th _ hph hque => exact LimStep.completeEmpty t th _ hph hque
      | completeWake t th w q' _ hph hque => exact LimStep.completeWake t th w q' _ hph hque

/-- Witness for C5 at a concrete instance: with limit 1 and 2 queued calls,
the initial state satisfies the ceiling and the counter/running agreement. -/
theorem c5_limiter_concurrency_ceiling_witness :
    runningCount (limInit 2) ≤ 1 ∧
    (limInit 2).counter = (runningCount (limInit 2) : Int) :=
  c5_limiter_concurrency_ceiling.1 1 2 (limInit 2) LimReachable.init

/-! ## Claim theorem: C6 -/

/-- **C6**: when `detectWordPressCore` yields no component, `scanRemote`
returns (rather than rejecting) a result carrying the error string
`WordPress not detected at this URL` with empty plugin and theme lists, and
no plugin or theme detection is attempted for any slug (the attempted slug
lists are empty).  The thrown-error path behaves analogously with a
`Core detection failed` error. -/
theorem c6_no_core_is_terminal :
    (∀ (config : WpVetConfig) (url b html : String) pd td,
      scanRemote config url (some (b, html)) (Except.ok none) pd td =
        (⟨url, "remote", none, [], [], ["WordPress not detected at this URL"]⟩,
          [], [])) ∧
    (∀ (config : WpVetConfig) (url b html e : String) pd td,
      scanRemote config url (some (b, html)) (Except.error e) pd td =
        (⟨url, "remote", none, [], [], ["Core detection failed: " ++ e]⟩,
          [], [])) := by
  exact ⟨fun _ _ _ _ _ _ => rfl, fun _ _ _ _ _ _ _ => rfl⟩

/-! ## HTML scraping lemmas (C7) -/

/-- Case-insensitive literal match (what the `i` flag accepts of an
occurrence of the pattern). -/
def ciMatch (occ pat : List Char) : Prop :=
  List.Forall₂ (fun c p => ciChar c p = true) occ pat

theorem dropCi_decomp {pat l r1 : List Char} (h : dropCi pat l = some r1) :
    ∃ occ, l = occ ++ r1 ∧ ciMatch occ pat := by
  induction pat generalizing l with
  | nil =>
    simp only [dropCi, Option.some.injEq] at h
    exact ⟨[], by simp [h], List.Forall₂.nil⟩
  | cons p ps ih =>
    cases l with
    | nil => simp [dropCi] at h
    | cons c cs =>
      simp only [dropCi] at h
      split at h
      · rename_i hc
        obtain ⟨occ, hdec, hmatch⟩ := ih h
        exact ⟨c :: occ, by rw [List.cons_append, ← hdec], List.Forall₂.cons hc hmatch⟩
      · simp at h

theorem matchSlugAt_decomp {pat l run r2 : List Char}
    (h : matchSlugAt pat l = some (run, r2)) :
    ∃ occ, l = occ ++ (run ++ '/' :: r2) ∧ ciMatch occ pat ∧ run ≠ [] ∧
      ∀ c ∈ run, slugChar c = true := by
  unfold matchSlugAt at h
  cases hd : dropCi pat l with
  | none => rw [hd] at h; simp at h
  | some r1 =>
    rw [hd] at h
    simp only at h
    split at h
    · simp at h
    · rename_i hrun
      split at h
      · rename_i r2' heq
        simp only [Option.some.injEq, Prod.mk.injEq] at h
        obtain ⟨occ, hdec, hmatch⟩ := dropCi_decomp hd
        refine ⟨occ, ?_, hmatch, ?_, ?_⟩
        · rw [hdec, ← h.1, ← h.2, ← heq, List.takeWhile_append_dropWhile]
        · intro hnil
          rw [← h.1] at hnil
          rw [hnil] at hrun
          simp at hrun
        · intro c hc
          rw [← h.1] at hc
          exact List.mem_takeWhile_imp hc
      · simp at h

theorem scanSlugsF_sound (pat : List Char) : ∀ (fuel : Nat) (l r : List Char),
    r ∈ scanSlugsF pat fuel l →
    ∃ a occ b2, l = a ++ (occ ++ (r ++ '/' :: b2)) ∧ ciMatch occ pat ∧
      r ≠ [] ∧ ∀ c ∈ r, slugChar c = true := by
  intro fuel
  induction fuel with
  | zero => intro l r hr; simp [scanSlugsF] at hr
  | succ fuel ih =>
    intro l r hr
    cases l with
    | nil => simp [scanSlugsF] at hr
    | cons c tail =>
      rw [scanSlugsF] at hr
      cases hmatch : matchSlugAt pat (c :: tail) with
      | some p =>
        obtain ⟨run, r2⟩ := p
        rw [hmatch] at hr
        rcases List.mem_cons.mp hr with h | h
        · obtain ⟨occ, hdec, hm, hne, hall⟩ := matchSlugAt_decomp hmatch
          subst h
          exact ⟨[], occ, r2, by simpa using hdec, hm, hne, hall⟩
        · obtain ⟨a, occ, b2, hdec, hm, hne, hall⟩ := ih r2 r h
          obtain ⟨occ0, hdec0, _, _, _⟩ := matchSlugAt_decomp hmatch
          refine ⟨occ0 ++ run ++ '/' :: a, occ, b2, ?_, hm, hne, hall⟩
          rw [hdec0, hdec]
          simp [List.append_assoc]
      | none =>
        rw [hmatch] at hr
        obtain ⟨a, occ, b2, hdec, hm, hne, hall⟩ := ih tail r hr
        exact ⟨c :: a, occ, b2, by rw [hdec, List.cons_append], hm, hne, hall⟩

theorem scanSlugs_sound (pat : List Char) : ∀ (l r : List Char),
    r ∈ scanSlugs pat l →
    ∃ a occ b2, l = a ++ (occ ++ (r ++ '/' :: b2)) ∧ ciMatch occ pat ∧
      r ≠ [] ∧ ∀ c ∈ r, slugChar c = true := by
  intro l r hr
  exact scanSlugsF_sound pat l.length l r hr

theorem mem_dedupFirstAux (l : List String) :
    ∀ (seen : List String) (x : String),
      x ∈ dedupFirstAux seen l ↔ x ∈ l ∧ x ∉ seen := by
  induction l with
  | nil => intro seen x; simp [dedupFirstAux]
  | cons a t ih =>
    intro seen x
    rw [dedupFirstAux]
    by_cases ha : a ∈ seen
    · rw [if_pos ha, ih]
      constructor
      · rintro ⟨h1, h2⟩
        exact ⟨List.mem_cons_of_mem a h1, h2⟩
      · rintro ⟨h1, h2⟩
        rcases List.mem_cons.mp h1 with h | h
        · exact absurd (h ▸ ha) h2
        · exact ⟨h, h2⟩
    · rw [if_neg ha]
      constructor
      · intro h
        rcases List.mem_cons.mp h with h0 | h0
        · rw [h0]
          exact ⟨List.mem_cons_self a t, ha⟩
        · obtain ⟨h1, h2⟩ := (ih (a :: seen) x).mp h0
          exact ⟨List.mem_cons_of_mem a h1,
            fun hm => h2 (List.mem_cons_of_mem a hm)⟩
      · rintro ⟨h1, h2⟩
        rcases List.mem_cons.mp h1 with h0 | h0
        · rw [h0]
          exact List.mem_cons_self a _
        · by_cases hxa : x = a
          · rw [hxa]
            exact List.mem_cons_self a _
          · refine List.mem_cons_of_mem a ((ih (a :: seen) x).mpr ⟨h0, ?_⟩)
            intro hm
            rcases List.mem_cons.mp hm with hh | hh
            · exact hxa hh
            · exact h2 hh

theorem mem_dedupFirst (l : List String) (x : String) :
    x ∈ dedupFirst l ↔ x ∈ l := by
  unfold dedupFirst
  rw [mem_dedupFirstAux]
  simp

theorem nodup_dedupFirstAux (l : List String) :
    ∀ seen : List String, (dedupFirstAux seen l).Nodup := by
  induction l with
  | nil => intro seen; simp [dedupFirstAux]
  | cons a t ih =>
    intro seen
    rw [dedupFirstAux]
    by_cases ha : a ∈ seen
    · rw [if_pos ha]
      exact ih seen
    · rw [if_neg ha]
      refine List.nodup_cons.mpr ⟨?_, ih (a :: seen)⟩
      intro hmem
      have := (mem_dedupFirstAux t (a :: seen) a).mp hmem
      exact this.2 (List.mem_cons_self a seen)

theorem nodup_dedupFirst (l : List String) : (dedupFirst l).Nodup :=
  nodup_dedupFirstAux l []

/-! ## Claim theorems: C7 -/

/-- **C7** (counterexample): the code excludes only `plugin`/`plugins` from
the plugin scrape and only `theme`/`themes` from the theme scrape — it does
not exclude all four words from each, as the claim states.  A path
`/wp-content/plugins/themes/…` yields the scraped plugin slug `themes`, and
`/wp-content/themes/plugin/…` yields the scraped theme slug `plugin`. -/
theorem c7_counterexample_cross_words_not_excluded :
    "themes" ∈ extractPluginsFromHtml
      "<img src=/wp-content/plugins/themes/shot.png>" ∧
    "plugin" ∈ extractThemesFromHtml
      "<a href=/wp-content/themes/plugin/x.css>" := by
  exact ⟨by decide, by decide⟩

/-- **C7** (amended): the plugin candidate set scanned by `scanRemote` is
the deduplicated union of the configured slug list and the slugs found by
the sequential case-insensitive scan of the body for
`/wp-content/plugins/<slug>/`, lowercased, with only the literal words
`plugin` and `plugins` excluded; themes analogously with only `theme` and
`themes` excluded.  Every scanned slug really occurs in the body as a
case-insensitive `/wp-content/plugins/` occurrence followed by a nonempty
run of slug characters and a slash. -/
theorem c7_candidate_sets :
    (∀ (config : WpVetConfig) (url b html : String) core pd td,
      (scanRemote config url (some (b, html)) (Except.ok (some core)) pd td).2.1 =
          pluginsToScan config html ∧
      (scanRemote config url (some (b, html)) (Except.ok (some core)) pd td).2.2 =
          themesToScan config html) ∧
    (∀ config html x, x ∈ pluginsToScan config html ↔
      (x ∈ getPluginsToScan config ∨ x ∈ extractPluginsFromHtml html)) ∧
    (∀ config html x, x ∈ themesToScan config html ↔
      (x ∈ getThemesToScan config ∨ x ∈ extractThemesFromHtml html)) ∧
    (∀ html x, x ∈ extractPluginsFromHtml html ↔
      ((∃ r ∈ scanSlugs ("/wp-content/plugins/".toList) html.toList,
          x = lowerStr r) ∧ x ≠ "plugin" ∧ x ≠ "plugins")) ∧
    (∀ html x, x ∈ extractThemesFromHtml html ↔
      ((∃ r ∈ scanSlugs ("/wp-content/themes/".toList) html.toList,
          x = lowerStr r) ∧ x ≠ "theme" ∧ x ≠ "themes")) ∧
    (∀ pat l r, r ∈ scanSlugs pat l →
      ∃ a occ b2, l = a ++ (occ ++ (r ++ '/' :: b2)) ∧ ciMatch occ pat ∧
        r ≠ [] ∧ ∀ c ∈ r, slugChar c = true) ∧
    (∀ config html, (pluginsToScan config html).Nodup ∧
      (themesToScan config html).Nodup) := by
  refine ⟨fun _ _ _ _ _ _ _ => ⟨rfl, rfl⟩, ?_, ?_, ?_, ?_,
    fun pat l r => scanSlugs_sound pat l r, ?_⟩
  · intro config html x
    unfold pluginsToScan
    rw [mem_dedupFirst]
    exact List.mem_append
  · intro config html x
    unfold themesToScan
    rw [mem_dedupFirst]
    exact List.mem_append
  · intro html x
    unfold extractPluginsFromHtml
    rw [mem_dedupFirst, List.mem_filter, List.mem_map]
    simp only [decide_eq_true_eq]
    constructor
    · rintro ⟨⟨r, hr, hx⟩, hns⟩
      exact ⟨⟨r, hr, hx.symm⟩, hns.1, hns.2⟩
    · rintro ⟨⟨r, hr, hx⟩, h1, h2⟩
      exact ⟨⟨r, hr, hx.symm⟩, h1, h2⟩
  · intro html x
    unfold extractThemesFromHtml
    rw [mem_dedupFirst, List.mem_filter, List.mem_map]
    simp only [decide_eq_true_eq]
    constructor
    · rintro ⟨⟨r, hr, hx⟩, hns⟩
      exact ⟨⟨r, hr, hx.symm⟩, hns.1, hns.2⟩
    · rintro ⟨⟨r, hr, hx⟩, h1, h2⟩
      exact ⟨⟨r, hr, hx.symm⟩, h1, h2⟩
  · intro config html
    exact ⟨nodup_dedupFirst _, nodup_dedupFirst _⟩

/-- Witness for C7 at a concrete page: the scanned slug `akismet` comes with
an actual decomposition of the page around a case-insensitive occurrence of
the plugin path prefix. -/
theorem c7_candidate_sets_witness :
    ∃ a occ b2, "/WP-Content/Plugins/Akismet/x.js".toList =
        a ++ (occ ++ ("Akismet".toList ++ '/' :: b2)) ∧
      ciMatch occ ("/wp-content/plugins/".toList) ∧
      "Akismet".toList ≠ [] ∧ ∀ c ∈ "Akismet".toList, slugChar c = true := by
  exact c7_candidate_sets.2.2.2.2.2.1 ("/wp-content/plugins/".toList)
    ("/WP-Content/Plugins/Akismet/x.js".toList) ("Akismet".toList) (by decide)

/-! ## NDJSON fallback lemmas (C8) -/

/-- Binding cannot change the error component when both continuations
always succeed or fail identically. -/
theorem exceptErr_bind {α β : Type} (x : Except String α)
    (f g : α → Except String β)
    (h : ∀ a, exceptErr (f a) = exceptErr (g a)) :
    exceptErr (x >>= f) = exceptErr (x >>= g) := by
  cases x with
  | error e => rfl
  | ok a => exact h a

/-- Whether one NDJSON line succeeds, and its error message when it does not,
do not depend on the accumulated state: parsing a line only reads the line. -/
theorem ndLineBody_error_irrel (jparse : String → Except String Json)
    (st st' : WpCliInput) (line : String) :
    exceptErr (ndLineBody jparse st line) =
      exceptErr (ndLineBody jparse st' line) := by
  unfold ndLineBody
  apply exceptErr_bind
  intro obj
  cases obj with
  | arr items =>
    dsimp only
    cases htr : truthyOpt ((items.head?.map (fun h => getField h "stylesheet")).join) with
    | true =>
      rw [if_pos rfl, if_pos rfl]
      exact exceptErr_bind _ _ _ (fun _ => rfl)
    | false =>
      rw [if_neg (by simp), if_neg (by simp)]
      exact exceptErr_bind _ _ _ (fun _ => rfl)
  | null => rfl
  | bool b => rfl
  | num n => rfl
  | str s => rfl
  | obj fields =>
    simp only [isJsObject]
    split
    · split <;> first
      | rfl
      | (split <;> rfl)
    · rfl

theorem ndLineError_none {jparse : String → Except String Json}
    {st : WpCliInput} {line : String} {st' : WpCliInput}
    (h : ndLineBody jparse st line = .ok st') :
    ndLineError jparse line = none := by
  have hirr := ndLineBody_error_irrel jparse ⟨none, [], []⟩ st line
  unfold ndLineError
  rw [hirr, h]
  rfl

theorem ndLineError_some {jparse : String → Except String Json}
    {st : WpCliInput} {line : String} {m : String}
    (h : ndLineBody jparse st line = .error m) :
    ndLineError jparse line = some m := by
  have hirr := ndLineBody_error_irrel jparse ⟨none, [], []⟩ st line
  unfold ndLineError
  rw [hirr, h]
  rfl

/-- The errors collected by the NDJSON loop: one line-numbered, truncated
entry per failing line, all lines processed. -/
theorem ndFold_errors (jparse : String → Except String Json) :
    ∀ (lines : List String) (st : WpCliInput) (i : Nat),
      (ndFold jparse st i lines).2 =
        (List.enumFrom i lines).filterMap (fun p =>
          match ndLineError jparse p.2 with
          | some m => some ⟨p.1 + 1, truncate100 p.2, m⟩
          | none => none) := by
  intro lines
  induction lines with
  | nil => intro st i; rfl
  | cons line rest ih =>
    intro st i
    rw [ndFold]
    cases hb : ndLineBody jparse st line with
    | ok st' =>
      simp only
      rw [List.enumFrom_cons, List.filterMap_cons]
      rw [ndLineError_none hb]
      simp only
      rw [ih st' (i + 1)]
    | error m =>
      simp only
      rw [List.enumFrom_cons, List.filterMap_cons]
      rw [ndLineError_some hb]
      simp only
      rw [ih st (i + 1)]

/-! ## Claim theorem: C8 -/

/-- **C8**: when the whole inventory fails to parse as a single JSON
document (and the input has at least one nonempty line), `parseWpCliInput`
falls back to line-by-line parsing and returns normally — it never throws
from the NDJSON path; the error list has exactly one entry per failing line,
carrying that line's 1-based number and its content truncated to 100
characters, and every line (malformed or not) is processed. -/
theorem c8_ndjson_line_errors :
    ∀ (jparse : String → Except String Json) (input e : String),
      jparse input = .error e → ndLines input ≠ [] →
      ∃ d errs, parseWpCliInput jparse input = .ok (d, errs) ∧
        errs = (List.enumFrom 0 (ndLines input)).filterMap (fun p =>
          match ndLineError jparse p.2 with
          | some m => some ⟨p.1 + 1, truncate100 p.2, m⟩
          | none => none) ∧
        (∀ k line m, (ndLines input).get? k = some line →
          ndLineError jparse line = some m →
          (⟨k + 1, truncate100 line, m⟩ : ParseError) ∈ errs) := by
  intro jparse input e hwhole hne
  refine ⟨(ndFold jparse ⟨none, [], []⟩ 0 (ndLines input)).1,
    (ndFold jparse ⟨none, [], []⟩ 0 (ndLines input)).2, ?_, ?_, ?_⟩
  · unfold parseWpCliInput
    rw [hwhole]
    rw [if_neg (by simpa [List.isEmpty_iff] using hne)]
  · exact ndFold_errors jparse (ndLines input) ⟨none, [], []⟩ 0
  · intro k line m hk hm
    rw [ndFold_errors jparse (ndLines input) ⟨none, [], []⟩ 0]
    refine List.mem_filterMap.mpr ⟨(k, line), ?_, ?_⟩
    · have := List.enumFrom_get? 0 (ndLines input) k
      have h2 : (List.enumFrom 0 (ndLines input)).get? k = some (k, line) := by
        rw [this, hk]
        simp
      exact List.get?_mem h2
    · simp only [hm]

/-- Witness for C8 at a concrete input: every line fails to parse under an
oracle that rejects everything, so both lines are recorded, in order, with
their 1-based numbers, and the parse still returns `.ok`. -/
theorem c8_ndjson_line_errors_witness :
    ∃ d errs,
      parseWpCliInput (fun _ => .error "bad json") "aaa\nbbb" = .ok (d, errs) ∧
      errs = (List.enumFrom 0 (ndLines "aaa\nbbb")).filterMap (fun p =>
        match ndLineError (fun _ => .error "bad json") p.2 with
        | some m => some ⟨p.1 + 1, truncate100 p.2, m⟩
        | none => none) ∧
      (∀ k line m, (ndLines "aaa\nbbb").get? k = some line →
        ndLineError (fun _ => .error "bad json") line = some m →
        (⟨k + 1, truncate100 line, m⟩ : ParseError) ∈ errs) := by
  exact c8_ndjson_line_errors (fun _ => .error "bad json") "aaa\nbbb" "bad json"
    rfl (by decide)

/-! ## Claim theorem: C9 -/

section
-- Batteries marks the arithmetic on ℚ irreducible, which blocks the
-- elaborator-side evaluation `decide` performs; the kernel itself ignores
-- reducibility, so unsealing locally is sound.
attribute [local semireducible] Rat.mul Rat.add Rat.inv

/-- **C9**: the confidence of `detectCoreByJsFingerprint` is
`min(50 + matchCountBonus + specificityBonus, 75)`: a fixed base of 50, a
match-count bonus that is monotone in the number of matches and capped at
25, and a specificity bonus of 10 granted only when the running minimum of
`avgVersionsPerMatch` is at most 3 (a narrow version set); the total never
exceeds 75, strictly below the 95 of exact meta-generator detection.  A
single digest mapping to 5 versions with no comment-extracted version has
minimum average 5, hence no specificity bonus, and scores 60. -/
theorem c9_fingerprint_confidence :
    (∀ files, (gatherFingerprints files).1.isEmpty = false →
      (detectCoreByJsFingerprint files).confidence =
        min (50 + matchCountBonus (gatherFingerprints files).1.length +
          specificityBonus (runSelection (gatherFingerprints files).1
            (gatherFingerprints files).2).minVersionsMatched) 75) ∧
    (∀ n m, n ≤ m → matchCountBonus n ≤ matchCountBonus m) ∧
    (∀ n, matchCountBonus n ≤ 25) ∧
    (∀ q, specificityBonus q = 0 ∨ specificityBonus q = 10) ∧
    (∀ q, specificityBonus q = 10 → ∃ x, q = some x ∧ x ≤ 3) ∧
    (∀ files, (detectCoreByJsFingerprint files).confidence ≤ 75) ∧
    (75 < metaGeneratorConfidence) ∧
    (detectCoreByJsFingerprint
        [⟨"p", "h", some ["6.0", "6.0.1", "6.0.2", "6.0.3", "6.1"], none⟩] =
      ⟨some "6.0", 60, "js-fingerprint",
        [⟨"p", "h", ["6.0", "6.0.1", "6.0.2", "6.0.3", "6.1"]⟩]⟩) ∧
    ((runSelection
        (gatherFingerprints
          [⟨"p", "h", some ["6.0", "6.0.1", "6.0.2", "6.0.3", "6.1"], none⟩]).1
        (gatherFingerprints
          [⟨"p", "h", some ["6.0", "6.0.1", "6.0.2", "6.0.3", "6.1"], none⟩]).2).minVersionsMatched
        = some 5 ∧
      specificityBonus (some 5) = 0) := by
  refine ⟨?_, ?_, ?_, ?_, ?_, ?_, by decide, by decide, by decide, by decide⟩
  · intro files h
    unfold detectCoreByJsFingerprint
    rw [if_neg (by simp [h])]
  · intro n m h
    simp only [matchCountBonus]
    omega
  · intro n
    simp only [matchCountBonus]
    omega
  · intro q
    cases q with
    | none => exact Or.inl rfl
    | some x =>
      by_cases hx : x ≤ 3
      · exact Or.inr (by simp [specificityBonus, hx])
      · exact Or.inl (by simp [specificityBonus, hx])
  · intro q h
    cases q with
    | none => exact absurd h (by simp [specificityBonus])
    | some x =>
      by_cases hx : x ≤ 3
      · exact ⟨x, rfl, hx⟩
      · exact absurd h (by simp [specificityBonus, hx])
  · intro files
    unfold detectCoreByJsFingerprint
    split
    · decide
    · dsimp only
      omega

/-- Witness for C9: the hypothesis-bearing conjuncts applied at concrete
inputs — the confidence formula at the 5-version digest, bonus
monotonicity at 1 ≤ 2, and the narrow-set direction at an average of 3. -/
theorem c9_fingerprint_confidence_witness :
    ((detectCoreByJsFingerprint
        [⟨"p", "h", some ["6.0", "6.0.1", "6.0.2", "6.0.3", "6.1"], none⟩]).confidence =
      min (50 + matchCountBonus (gatherFingerprints
          [⟨"p", "h", some ["6.0", "6.0.1", "6.0.2", "6.0.3", "6.1"], none⟩]).1.length +
        specificityBonus (runSelection
          (gatherFingerprints
            [⟨"p", "h", some ["6.0", "6.0.1", "6.0.2", "6.0.3", "6.1"], none⟩]).1
          (gatherFingerprints
            [⟨"p", "h", some ["6.0", "6.0.1", "6.0.2", "6.0.3", "6.1"], none⟩]).2).minVersionsMatched) 75) ∧
    matchCountBonus 1 ≤ matchCountBonus 2 ∧
    (∃ x, (some (3 : ℚ)) = some x ∧ x ≤ 3) :=
  ⟨c9_fingerprint_confidence.1 _ (by decide),
   c9_fingerprint_confidence.2.1 1 2 (by decide),
   c9_fingerprint_confidence.2.2.2.2.1 (some 3) (by decide)⟩

end

/-! ## Entry construction lemmas (C10) -/

theorem parsePluginItems_forall2 :
    ∀ (items : List Json) (i : Nat) (ps : List WpPlugin),
      parsePluginItems i items = .ok ps →
      List.Forall₂ (fun rec p => p = mkWpPlugin rec) items ps := by
  intro items
  induction items with
  | nil =>
    intro i ps h
    simp only [parsePluginItems] at h
    cases h
    exact List.Forall₂.nil
  | cons item rest ih =>
    intro i ps h
    simp only [parsePluginItems] at h
    by_cases hobj : isJsObject item = true
    · rw [if_pos hobj] at h
      cases ht : parsePluginItems (i + 1) rest with
      | error e => rw [ht] at h; exact absurd h (by simp [Bind.bind, Except.bind])
      | ok tail =>
        rw [ht] at h
        simp only [Bind.bind, Except.bind, Except.ok.injEq] at h
        cases h
        exact List.Forall₂.cons rfl (ih (i + 1) tail ht)
    · rw [if_neg hobj] at h
      exact absurd h (by simp)

theorem parseThemeItems_forall2 :
    ∀ (items : List Json) (i : Nat) (ts : List WpTheme),
      parseThemeItems i items = .ok ts →
      List.Forall₂ (fun rec t => t = mkWpTheme rec) items ts := by
  intro items
  induction items with
  | nil =>
    intro i ts h
    simp only [parseThemeItems] at h
    cases h
    exact List.Forall₂.nil
  | cons item rest ih =>
    intro i ts h
    simp only [parseThemeItems] at h
    by_cases hobj : isJsObject item = true
    · rw [if_pos hobj] at h
      cases ht : parseThemeItems (i + 1) rest with
      | error e => rw [ht] at h; exact absurd h (by simp [Bind.bind, Except.bind])
      | ok tail =>
        rw [ht] at h
        simp only [Bind.bind, Except.bind, Except.ok.injEq] at h
        cases h
        exact List.Forall₂.cons rfl (ih (i + 1) tail ht)
    · rw [if_neg hobj] at h
      exact absurd h (by simp)

/-! ## Claim theorem: C10 -/

/-- **C10**: every entry produced by `parsePluginList` / `parseThemeList`
has `name = slug = pickNameSlug record`, the embedding of
`String(obj.name || obj.slug || 'unknown')`; a truthy `name` property wins
(an explicitly provided `slug` property is ignored), the `slug` property is
consulted only when `name` is absent or falsy, and with neither the result
is the literal `unknown`. -/
theorem c10_name_slug_coalesce :
    (∀ items ps, parsePluginList (.arr items) = .ok ps →
      List.Forall₂ (fun rec p =>
        p.name = pickNameSlug rec ∧ p.slug = pickNameSlug rec) items ps) ∧
    (∀ items ts, parseThemeList (.arr items) = .ok ts →
      List.Forall₂ (fun rec t =>
        t.name = pickNameSlug rec ∧ t.slug = pickNameSlug rec) items ts) ∧
    (∀ rec v, getField rec "name" = some v → truthy v = true →
      pickNameSlug rec = jsToString v) ∧
    (∀ rec v, truthyOpt (getField rec "name") = false →
      getField rec "slug" = some v → truthy v = true →
      pickNameSlug rec = jsToString v) ∧
    (∀ rec, truthyOpt (getField rec "name") = false →
      truthyOpt (getField rec "slug") = false →
      pickNameSlug rec = "unknown") := by
  refine ⟨?_, ?_, ?_, ?_, ?_⟩
  · intro items ps h
    exact (parsePluginItems_forall2 items 0 ps h).imp
      (fun _ _ hp => by rw [hp]; exact ⟨rfl, rfl⟩)
  · intro items ts h
    exact (parseThemeItems_forall2 items 0 ts h).imp
      (fun _ _ hp => by rw [hp]; exact ⟨rfl, rfl⟩)
  · intro rec v hv htr
    unfold pickNameSlug
    rw [hv]
    simp [truthyOpt, htr]
  · intro rec v hn hv htr
    unfold pickNameSlug
    rw [hn, hv]
    simp [truthyOpt, htr]
  · intro rec hn hs
    simp [pickNameSlug, hn, hs]

/-- Witness for C10 at concrete records: a record with both `name` and
`slug` keeps the name for both output fields; a record with only `slug`
uses it; a record with neither falls back to `unknown`; and a parsed
one-element plugin and theme list satisfy the `Forall₂` coupling. -/
theorem c10_name_slug_coalesce_witness :
    pickNameSlug (.obj [("name", .str "akismet"), ("slug", .str "ignored")]) =
      jsToString (.str "akismet") ∧
    pickNameSlug (.obj [("slug", .str "astra")]) = jsToString (.str "astra") ∧
    pickNameSlug (.obj []) = "unknown" ∧
    List.Forall₂ (fun rec p =>
        WpPlugin.name p = pickNameSlug rec ∧ WpPlugin.slug p = pickNameSlug rec)
      [Json.obj [("name", .str "akismet"), ("slug", .str "ignored")]]
      [mkWpPlugin (.obj [("name", .str "akismet"), ("slug", .str "ignored")])] ∧
    List.Forall₂ (fun rec t =>
        WpTheme.name t = pickNameSlug rec ∧ WpTheme.slug t = pickNameSlug rec)
      [Json.obj [("slug", .str "astra")]]
      [mkWpTheme (.obj [("slug", .str "astra")])] :=
  ⟨c10_name_slug_coalesce.2.2.1 _ (.str "akismet") rfl rfl,
   c10_name_slug_coalesce.2.2.2.1 _ (.str "astra") rfl rfl rfl,
   c10_name_slug_coalesce.2.2.2.2 _ rfl rfl,
   c10_name_slug_coalesce.1 _ _ rfl,
   c10_name_slug_coalesce.2.1 _ _ rfl⟩

end WpVet
